import Mathlib

/-!
# A shallow embedding of `equivalence.py` (pyquivalence)

The repository implements equivalence relations via a disjoint-set forest
(`Equivalence`), with two orthogonal extensions: a parent-to-children index for
fast single-class `partition` (`BidirectionalEquivalence`) and key-function
based implicit equivalence (`KeyEquivalence`, `KeyBidirectionalEquivalence`).

Python dictionaries are modelled as association lists, Python `set` fields as
lists with membership-based insertion.  The recursive `_find` (which may not
terminate on a cyclic parent map) and every operation calling it are modelled
with an explicit fuel parameter; `none` means the call did not complete within
the given fuel.  `are_equivalent`'s `ValueError` is modelled with `Except`.

The dynamic dispatch of `self._join` (overridden by `BidirectionalEquivalence`)
is modelled by parametrising the shared code over the join function; the
dispatch of `self._find` (overridden by `KeyEquivalence` to first apply the key
function) is modelled by parametrising `partition` over the find function.
-/

section AssocList

variable {α β : Type} [DecidableEq α]

/-- Lookup in an association list (Python `dict.__getitem__` / `in`). -/
def alookup : List (α × β) → α → Option β
  | [], _ => none
  | (key, v) :: rest, x => if x = key then some v else alookup rest x

/-- Set a key in an association list (Python `dict.__setitem__`):
replaces in place if present, appends otherwise. -/
def aset : List (α × β) → α → β → List (α × β)
  | [], x, v => [(x, v)]
  | (key, w) :: rest, x, v =>
    if x = key then (x, v) :: rest else (key, w) :: aset rest x v

/-- `d.get(key, default)` returning a list (used for children / key buckets). -/
def childGet (l : List (α × List α)) (x : α) : List α :=
  (alookup l x).getD []

/-- Add `v` to the set stored at `l[x]` (Python `set.add` on a
`defaultdict(set)` entry): no-op when already present. -/
def madd (l : List (α × List α)) (x : α) (v : α) : List (α × List α) :=
  if v ∈ childGet l x then l else aset l x (childGet l x ++ [v])

end AssocList

section Engine

variable {α ε : Type} [DecidableEq α]

/-- The state shared by `Equivalence` and its subclasses:
`_child2parent` (a root maps to `none`), `_rank`, and an extension slot
(`Unit` for the base class, the `_parent2children` index for
`BidirectionalEquivalence`). -/
structure GState (α ε : Type) where
  parent : List (α × Option α)
  rank : List (α × Nat)
  extra : ε

/-- Type of the overridable `_join(obj, parent=None)` method. -/
def JoinFn (α ε : Type) := GState α ε → α → Option α → GState α ε

/-- `Equivalence._join`: `self._child2parent[obj] = parent`. -/
def baseJoin : JoinFn α Unit := fun s obj p =>
  { s with parent := aset s.parent obj p }

/-- `BidirectionalEquivalence._join`: additionally record `obj` as a child of
`parent` in `_parent2children` when `parent is not None`. -/
def bidirJoin : JoinFn α (List (α × List α)) := fun s obj p =>
  { parent := aset s.parent obj p,
    rank := s.rank,
    extra := match p with
             | none => s.extra
             | some q => madd s.extra q obj }

/-- What every `_join` override does to `parent` and `rank` (the shared
contract of `Equivalence._join` and `BidirectionalEquivalence._join`). -/
def GoodJoin (j : JoinFn α ε) : Prop :=
  ∀ s obj p, (j s obj p).parent = aset s.parent obj p ∧ (j s obj p).rank = s.rank

/-- `self._rank[obj] = 0` (done right after an inserting join). -/
def setRank0 (s : GState α ε) (obj : α) : GState α ε :=
  { s with rank := aset s.rank obj 0 }

/-- `self._rank[root]` (present on every root in reachable states). -/
def getRank (s : GState α ε) (x : α) : Nat :=
  (alookup s.rank x).getD 0

/-- `self._rank[root] += 1`. -/
def bumpRank (s : GState α ε) (x : α) : GState α ε :=
  { s with rank := aset s.rank x (getRank s x + 1) }

/-- `Equivalence._find(obj, insert_if_missing)`, with fuel for the recursion
through parent links; `none` means the recursion did not terminate within the
fuel (on a cyclic parent map it never does). -/
def findG (j : JoinFn α ε) : Nat → GState α ε → α → Bool → Option (α × GState α ε)
  | 0, _, _, _ => none
  | f + 1, s, obj, ins =>
    match alookup s.parent obj with
    | none =>
      if ins then some (obj, setRank0 (j s obj none) obj) else some (obj, s)
    | some none => some (obj, s)
    | some (some p) =>
      match findG j f s p false with
      | none => none
      | some (root, s1) => some (root, j s1 obj (some root))

/-- `Equivalence.update`. -/
def updateG (j : JoinFn α ε) (s : GState α ε) (objs : List α) : GState α ε :=
  objs.foldl
    (fun st o => if (alookup st.parent o).isSome then st else setRank0 (j st o none) o)
    s

/-- One iteration of `Equivalence.merge`'s loop: find the next object's root
and apply union-by-rank against the (never-updated) running `root`. -/
def mergeStepG (j : JoinFn α ε) (f : Nat) (root : α) (s : GState α ε) (obj : α) :
    Option (α × GState α ε) :=
  match findG j f s obj true with
  | none => none
  | some (root2, s1) =>
    if getRank s1 root > getRank s1 root2 then
      some (root, j s1 root2 (some root))
    else if getRank s1 root < getRank s1 root2 then
      some (root, j s1 root (some root2))
    else if root ≠ root2 then
      some (root, j (bumpRank s1 root) root2 (some root))
    else
      some (root, s1)

def mergeGoG (j : JoinFn α ε) (f : Nat) : List α → α → GState α ε → Option (α × GState α ε)
  | [], root, s => some (root, s)
  | o :: rest, root, s =>
    match mergeStepG j f root s o with
    | none => none
    | some (root', s') => mergeGoG j f rest root' s'

/-- `Equivalence.merge` (no-op on an empty argument list). -/
def mergeG (j : JoinFn α ε) (f : Nat) (s : GState α ε) : List α → Option (GState α ε)
  | [] => some s
  | o :: rest =>
    match findG j f s o true with
    | none => none
    | some (root, s1) => (mergeGoG j f rest root s1).map Prod.snd

def areEqvGoG (j : JoinFn α ε) (f : Nat) :
    List α → α → GState α ε → Option (Except String Bool × GState α ε)
  | [], _, s => some (.ok true, s)
  | o :: rest, root, s =>
    match findG j f s o false with
    | none => none
    | some (r, s') =>
      if r = root then areEqvGoG j f rest root s' else some (.ok false, s')

/-- `Equivalence.are_equivalent` with its `ValueError` on an empty argument
list; the state is returned because `_find` mutates via path compression. -/
def areEqvG (j : JoinFn α ε) (f : Nat) (s : GState α ε) (objs : List α) :
    Option (Except String Bool × GState α ε) :=
  match objs with
  | [] => some (.error "No objects given", s)
  | o :: rest =>
    match findG j f s o false with
    | none => none
    | some (root, s') => areEqvGoG j f rest root s'

def partGo (find1 : GState α ε → α → Option (α × GState α ε)) :
    List α → α → List α → GState α ε → Option (List α × GState α ε)
  | [], _, acc, s => some (acc, s)
  | z :: zs, root, acc, s =>
    match find1 s z with
    | none => none
    | some (r, s') =>
      partGo find1 zs root (if r = root then acc ++ [z] else acc) s'

/-- `Equivalence.partition(obj)`: find `obj`'s root, then scan all tracked
objects keeping those with the same root.  Parametrised over `self._find`
(which `KeyEquivalence` overrides to apply the key function first). -/
def partitionWith (find1 : GState α ε → α → Option (α × GState α ε))
    (s : GState α ε) (y : α) : Option (List α × GState α ε) :=
  match find1 s y with
  | none => none
  | some (root, s1) => partGo find1 (s1.parent.map Prod.fst) root [] s1

def gadd (l : List (α × List α)) (x : α) (v : α) : List (α × List α) :=
  aset l x (childGet l x ++ [v])

def partsGo (find1 : GState α ε → α → Option (α × GState α ε)) :
    List α → List (α × List α) → GState α ε → Option (List (α × List α) × GState α ε)
  | [], acc, s => some (acc, s)
  | o :: os, acc, s =>
    match find1 s o with
    | none => none
    | some (r, s') => partsGo find1 os (gadd acc r o) s'

/-- `Equivalence.partitions(objects)`: group the given objects (or all tracked
objects) by their root, preserving duplicates. -/
def partitionsWith (find1 : GState α ε → α → Option (α × GState α ε))
    (s : GState α ε) (objsOpt : Option (List α)) :
    Option (List (α × List α) × GState α ε) :=
  partsGo find1 (objsOpt.getD (s.parent.map Prod.fst)) [] s

end Engine

section Bidirectional

variable {α : Type} [DecidableEq α]

/-- State of `BidirectionalEquivalence`: the extension slot holds
`_parent2children`. -/
def BState (α : Type) := GState α (List (α × List α))

/-- Traverse a list of children with a given recursive visitor (the
`for child in get_children(node, ())` loop of `recurse`). -/
def dfsListF (dfs1 : α → Option (List α)) : List α → Option (List α)
  | [] => some []
  | c :: cs =>
    match dfs1 c, dfsListF dfs1 cs with
    | some l1, some l2 => some (l1 ++ l2)
    | _, _ => none

/-- The depth-first traversal in `BidirectionalEquivalence.partition`
(`recurse`): collect a node and, recursively, all its recorded children.
There is no visited set, so termination relies on the children index being
acyclic; fuel bounds the recursion depth. -/
def dfsF : Nat → List (α × List α) → α → Option (List α)
  | 0, _, _ => none
  | f + 1, ch, node => (dfsListF (dfsF f ch) (childGet ch node)).map (node :: ·)

end Bidirectional

section BidirectionalOps

variable {α : Type} [DecidableEq α]

/-- `BidirectionalEquivalence.partition(obj)`: empty for an untracked object,
else a DFS over `_parent2children` from `find(obj)`.  Parametrised over
`self._find` (overridden by `KeyEquivalence` in the keyed-bidirectional
variant). -/
def partitionBWith (find1 : BState α → α → Option (α × BState α)) (fdfs : Nat)
    (s : BState α) (y : α) : Option (List α × BState α) :=
  if (alookup s.parent y).isSome then
    match find1 s y with
    | none => none
    | some (r, s1) => (dfsF fdfs s1.extra r).map (fun l => (l, s1))
  else some ([], s)

end BidirectionalOps

section Keyed

variable {α ε : Type} [DecidableEq α]

/-- State of `KeyEquivalence`: an underlying engine state over keys plus the
`_key2objects` reverse index.  The key function maps `α` to `α`: the source
requires this, since `KeyEquivalence.partition` feeds keys back into
`self._find`, which applies the key function again. -/
structure KState (α ε : Type) where
  base : GState α ε
  buckets : List (α × List α)

/-- `KeyEquivalence._update_key2objects`. -/
def updateBuckets (k : α → α) (bk : List (α × List α)) (objs : List α) :
    List (α × List α) :=
  objs.foldl (fun b o => madd b (k o) o) bk

/-- `KeyEquivalence.update`: record the objects under their keys, then update
the underlying engine with the keys. -/
def updateK (j : JoinFn α ε) (k : α → α) (s : KState α ε) (objs : List α) :
    KState α ε :=
  { base := updateG j s.base (objs.map k),
    buckets := updateBuckets k s.buckets objs }

/-- `KeyEquivalence._find(obj, insert_if_missing)`: apply the key function,
then run the inherited `_find` body on the key.  Crucially, the inherited
body's recursive call `self._find(parent)` dispatches back to this overriding
method, so the key function is applied again at every parent hop. -/
def findKF (j : JoinFn α ε) (k : α → α) : Nat → GState α ε → α → Bool → Option (α × GState α ε)
  | 0, _, _, _ => none
  | f + 1, s, obj, ins =>
    match alookup s.parent (k obj) with
    | none =>
      if ins then some (k obj, setRank0 (j s (k obj) none) (k obj)) else some (k obj, s)
    | some none => some (k obj, s)
    | some (some p) =>
      match findKF j k f s p false with
      | none => none
      | some (root, s1) => some (root, j s1 (k obj) (some root))

/-- The loop of the inherited `are_equivalent` over the remaining objects,
with every `self._find` dispatching to the keyed `_find`. -/
def areEqvGoK (j : JoinFn α ε) (k : α → α) (f : Nat) :
    List α → α → GState α ε → Option (Except String Bool × GState α ε)
  | [], _, s => some (.ok true, s)
  | o :: rest, root, s =>
    match findKF j k f s o false with
    | none => none
    | some (r, s') =>
      if r = root then areEqvGoK j k f rest root s' else some (.ok false, s')

/-- `KeyEquivalence.are_equivalent` (the inherited body, run on the raw
objects, with the keyed `_find`). -/
def areEqvK (j : JoinFn α ε) (k : α → α) (f : Nat) (s : KState α ε) (objs : List α) :
    Option (Except String Bool × KState α ε) :=
  match objs with
  | [] => some (.error "No objects given", s)
  | o :: rest =>
    match findKF j k f s.base o false with
    | none => none
    | some (root, s1) =>
      (areEqvGoK j k f rest root s1).map (fun rs => (rs.1, ⟨rs.2, s.buckets⟩))

/-- One iteration of the inherited `merge` loop with the keyed `_find`. -/
def mergeStepK (j : JoinFn α ε) (k : α → α) (f : Nat) (root : α) (s : GState α ε)
    (obj : α) : Option (α × GState α ε) :=
  match findKF j k f s obj true with
  | none => none
  | some (root2, s1) =>
    if getRank s1 root > getRank s1 root2 then
      some (root, j s1 root2 (some root))
    else if getRank s1 root < getRank s1 root2 then
      some (root, j s1 root (some root2))
    else if root ≠ root2 then
      some (root, j (bumpRank s1 root) root2 (some root))
    else
      some (root, s1)

def mergeGoK (j : JoinFn α ε) (k : α → α) (f : Nat) :
    List α → α → GState α ε → Option (α × GState α ε)
  | [], root, s => some (root, s)
  | o :: rest, root, s =>
    match mergeStepK j k f root s o with
    | none => none
    | some (root', s') => mergeGoK j k f rest root' s'

/-- `KeyEquivalence.merge`: record the objects under their keys, then run the
inherited merge on the raw objects; each of its `self._find` calls dispatches
to the keyed `_find` (applying the key function to the argument and at every
parent hop). -/
def mergeK (j : JoinFn α ε) (k : α → α) (f : Nat) (s : KState α ε) (objs : List α) :
    Option (KState α ε) :=
  match objs with
  | [] => some ⟨s.base, updateBuckets k s.buckets objs⟩
  | o :: rest =>
    match findKF j k f s.base o true with
    | none => none
    | some (root, s1) =>
      (mergeGoK j k f rest root s1).map
        (fun rs => ⟨rs.2, updateBuckets k s.buckets objs⟩)

/-- `KeyEquivalence.partition(obj)` (non-bidirectional): the inherited
partition of `key(obj)`, whose every internal find dispatches to the keyed
`_find`, expanded through the `_key2objects` buckets. -/
def partitionK (j : JoinFn α ε) (k : α → α) (f : Nat) (s : KState α ε) (x : α) :
    Option (List α × KState α ε) :=
  (partitionWith (fun st z => findKF j k f st z false) s.base (k x)).map
    (fun ls => (ls.1.flatMap (childGet s.buckets), { base := ls.2, buckets := s.buckets }))

/-- `KeyBidirectionalEquivalence.partition(obj)`: the bidirectional partition
of `key(obj)` with the keyed `_find`, expanded through the buckets. -/
def partitionKB (k : α → α) (f : Nat) (s : KState α (List (α × List α))) (x : α) :
    Option (List α × KState α (List (α × List α))) :=
  (partitionBWith (fun st z => findKF bidirJoin k f st z false) f s.base (k x)).map
    (fun ls => (ls.1.flatMap (childGet s.buckets), { base := ls.2, buckets := s.buckets }))

end Keyed

section Runs

variable {α ε : Type} [DecidableEq α]

/-- A public-interface call on an unkeyed instance. -/
inductive EqOp (α : Type) where
  | update : List α → EqOp α
  | merge : List α → EqOp α
  | areEqv : List α → EqOp α
  | partition : α → EqOp α
  | partitions : Option (List α) → EqOp α

/-- The state effect of one call on an `Equivalence` instance. -/
def stepE (j : JoinFn α ε) (f : Nat) (s : GState α ε) : EqOp α → Option (GState α ε)
  | .update os => some (updateG j s os)
  | .merge os => mergeG j f s os
  | .areEqv os => (areEqvG j f s os).map Prod.snd
  | .partition x => (partitionWith (fun st z => findG j f st z false) s x).map Prod.snd
  | .partitions os => (partitionsWith (fun st z => findG j f st z false) s os).map Prod.snd

def runE (j : JoinFn α ε) (f : Nat) : GState α ε → List (EqOp α) → Option (GState α ε)
  | s, [] => some s
  | s, op :: ops =>
    match stepE j f s op with
    | none => none
    | some s' => runE j f s' ops

/-- The state effect of one call on a `BidirectionalEquivalence` instance
(same as `stepE` except for the overridden `partition`). -/
def stepB (f : Nat) (s : BState α) : EqOp α → Option (BState α)
  | .update os => some (updateG bidirJoin s os)
  | .merge os => mergeG bidirJoin f s os
  | .areEqv os => (areEqvG bidirJoin f s os).map Prod.snd
  | .partition x =>
    (partitionBWith (fun st z => findG bidirJoin f st z false) f s x).map Prod.snd
  | .partitions os =>
    (partitionsWith (fun st z => findG bidirJoin f st z false) s os).map Prod.snd

def runB (f : Nat) : BState α → List (EqOp α) → Option (BState α)
  | s, [] => some s
  | s, op :: ops =>
    match stepB f s op with
    | none => none
    | some s' => runB f s' ops

/-- A fresh `Equivalence()`. -/
def initE : GState α Unit := ⟨[], [], ()⟩

/-- A fresh `BidirectionalEquivalence()`. -/
def initB : BState α := ⟨[], [], []⟩

/-- A fresh `KeyEquivalence(key)`. -/
def initK : KState α Unit := ⟨initE, []⟩

/-- A fresh `KeyBidirectionalEquivalence(key)`. -/
def initKB : KState α (List (α × List α)) := ⟨initB, []⟩

end Runs

section Semantics

variable {α ε : Type} [DecidableEq α]

/-- Pure root computation: follow parent links without mutating (used to state
what `_find` computes); `none` on fuel exhaustion. -/
def rootF : Nat → GState α ε → α → Option α
  | 0, _, _ => none
  | f + 1, s, x =>
    match alookup s.parent x with
    | none => some x
    | some none => some x
    | some (some p) => rootF f s p

/-- `w` is the root reached from `z` by following parent links. -/
def Root (s : GState α ε) (z w : α) : Prop :=
  ∃ g, rootF g s z = some w

/-- The parent map admits a ranking function `d` that strictly decreases along
parent links: this is exactly acyclicity of the forest. -/
def Wfd (s : GState α ε) (d : α → Nat) : Prop :=
  ∀ x p, alookup s.parent x = some (some p) → d p < d x

/-- Every non-null parent recorded in the map is itself a tracked element
(true in all states the code intends to reach; `merge` and path compression
only ever install roots, which are tracked, as parents). -/
def ClosedS (s : GState α ε) : Prop :=
  ∀ x p, alookup s.parent x = some (some p) → (alookup s.parent p).isSome

/-- The claimed invariant of `BidirectionalEquivalence`, in its provable
direction: every element with a non-null parent is recorded among that
parent's children in `_parent2children`. -/
def InvB (s : BState α) : Prop :=
  ∀ x p, alookup s.parent x = some (some p) → x ∈ childGet s.extra p

/-- Ranking compatibility of the children index: every recorded child is
strictly deeper than the node it is recorded under (holds as long as the
index only relates members of one class consistently). -/
def WfCh (s : BState α) (d : α → Nat) : Prop :=
  ∀ q c, c ∈ childGet s.extra q → d q < d c

/-- Every tracked element (key) of the engine state is a fixed point of the
key function.  This holds in every state the keyed variant reaches with an
idempotent key function, since only images of the key function are ever
inserted; it is the condition under which the per-hop key applications of the
keyed `_find` are harmless. -/
def KeyFixed (k : α → α) (s : GState α ε) : Prop :=
  ∀ z, (alookup s.parent z).isSome → k z = z

/-- The claim's reading of `KeyEquivalence.partition` (used for comparison
with the code's behaviour): the union of the `_key2objects` buckets of all
tracked keys in the equivalence class of `key(x)` itself. -/
def specKeyedPartition (f : Nat) (s : KState α ε) (k : α → α) (x : α) : List α :=
  ((s.base.parent.map Prod.fst).filter
      (fun z => decide (rootF f s.base z = rootF f s.base (k x)))).flatMap
    (childGet s.buckets)

end Semantics

section ConcreteStates

/-- Call sequence on which `merge`'s unpatched running root loses objects:
two rank-1 trees are built, then `merge(4, 0, 2)` should put `4`, `0`, `2`
in one class. -/
def lostMergeOps : List (EqOp Nat) :=
  [EqOp.merge [0, 1], EqOp.merge [2, 3], EqOp.merge [4, 0, 2]]

/-- Call sequence after which the parent map of a plain `Equivalence`
contains a two-element cycle (`0 ↔ 2`). -/
def cycleOps : List (EqOp Nat) :=
  [EqOp.merge [0, 1], EqOp.merge [2, 0, 3, 1]]

/-- The state reached by `cycleOps`: note `parent[0] = 2` and `parent[2] = 0`. -/
def cycleState : GState Nat Unit :=
  ⟨[(0, some 2), (1, some 0), (2, some 0), (3, some 2)],
   [(0, 1), (1, 0), (2, 2), (3, 0)], ()⟩

/-- Call sequence forcing path compression on a `BidirectionalEquivalence`
(the final `are_equivalent(3,3)` re-parents `3` from `2` to the root `0`). -/
def staleChildOps : List (EqOp Nat) :=
  [EqOp.merge [0, 1], EqOp.merge [2, 3], EqOp.merge [0, 2], EqOp.areEqv [3, 3]]

/-- The state reached by `staleChildOps`: `parent[3] = 0`, but `3` is still
recorded as a child of `2` in `_parent2children`. -/
def staleChildState : BState Nat :=
  ⟨[(0, none), (1, some 0), (2, some 0), (3, some 0)],
   [(0, 2), (1, 0), (2, 1), (3, 0)],
   [(0, [1, 2, 3]), (2, [3])]⟩

/-- `n % 2` as a key function (idempotent on its image). -/
def modKey (n : Nat) : Nat := n % 2

end ConcreteStates


/-! ## Association-list lemmas -/

section AssocLemmas

variable {α β : Type} [DecidableEq α]

theorem alookup_aset (l : List (α × β)) (x y : α) (v : β) :
    alookup (aset l x v) y = if y = x then some v else alookup l y := by
  induction l with
  | nil => by_cases h : y = x <;> simp [aset, alookup, h]
  | cons kv rest ih =>
    obtain ⟨key, w⟩ := kv
    by_cases hx : x = key
    · subst hx
      by_cases hy : y = x <;> simp [aset, alookup, hy]
    · by_cases hy : y = key
      · subst hy
        have hyx : ¬ y = x := fun h => hx h.symm
        simp [aset, alookup, hx, hyx]
      · simp [aset, alookup, hx, hy, ih]

theorem alookup_aset_self (l : List (α × β)) (x : α) (v : β) :
    alookup (aset l x v) x = some v := by
  simp [alookup_aset]

theorem alookup_aset_other {l : List (α × β)} {x y : α} (h : y ≠ x) (v : β) :
    alookup (aset l x v) y = alookup l y := by
  simp [alookup_aset, h]

theorem aset_keys_of_mem (l : List (α × β)) (x : α) (v : β)
    (h : (alookup l x).isSome) : (aset l x v).map Prod.fst = l.map Prod.fst := by
  induction l with
  | nil => simp [alookup] at h
  | cons kv rest ih =>
    obtain ⟨key, w⟩ := kv
    by_cases hx : x = key
    · subst hx
      simp [aset]
    · simp only [alookup, if_neg hx] at h
      simp [aset, hx, ih h]

theorem mem_keys_of_alookup {l : List (α × β)} {x : α} {v : β}
    (h : alookup l x = some v) : x ∈ l.map Prod.fst := by
  induction l with
  | nil => simp [alookup] at h
  | cons kv rest ih =>
    obtain ⟨key, w⟩ := kv
    by_cases hx : x = key
    · subst hx
      simp
    · simp only [alookup, if_neg hx] at h
      simp [ih h]

theorem alookup_isSome_of_mem_keys {l : List (α × β)} {x : α}
    (h : x ∈ l.map Prod.fst) : (alookup l x).isSome := by
  induction l with
  | nil => simp at h
  | cons kv rest ih =>
    obtain ⟨key, w⟩ := kv
    by_cases hx : x = key
    · simp [alookup, hx]
    · simp only [List.map_cons, List.mem_cons] at h
      rcases h with h | h
      · exact absurd h hx
      · simp [alookup, hx, ih h]

theorem childGet_aset (l : List (α × List α)) (x : α) (w : List α) (y : α) :
    childGet (aset l x w) y = if y = x then w else childGet l y := by
  unfold childGet
  rw [alookup_aset]
  by_cases h : y = x <;> simp [h]

theorem mem_childGet_madd_self (l : List (α × List α)) (x v : α) :
    v ∈ childGet (madd l x v) x := by
  unfold madd
  by_cases hv : v ∈ childGet l x
  · simp [hv]
  · simp [hv, childGet_aset]

theorem mem_childGet_madd_of_mem (l : List (α × List α)) (x v y c : α)
    (h : c ∈ childGet l y) : c ∈ childGet (madd l x v) y := by
  unfold madd
  by_cases hv : v ∈ childGet l x
  · simpa [hv] using h
  · rw [if_neg hv, childGet_aset]
    by_cases hy : y = x
    · subst hy
      simp [h]
    · simpa [hy] using h

theorem mem_childGet_madd_elim (l : List (α × List α)) (x v y c : α)
    (h : c ∈ childGet (madd l x v) y) :
    (y = x ∧ c = v) ∨ c ∈ childGet l y := by
  unfold madd at h
  by_cases hv : v ∈ childGet l x
  · rw [if_pos hv] at h
    exact Or.inr h
  · rw [if_neg hv, childGet_aset] at h
    by_cases hy : y = x
    · subst hy
      rw [if_pos rfl, List.mem_append, List.mem_singleton] at h
      rcases h with h | h
      · exact Or.inr h
      · exact Or.inl ⟨rfl, h⟩
    · rw [if_neg hy] at h
      exact Or.inr h

end AssocLemmas

/-! ## Basic equations and join facts -/

section BasicEquations

variable {α ε : Type} [DecidableEq α]

theorem goodJoin_base : GoodJoin (baseJoin (α := α)) := fun _ _ _ => ⟨rfl, rfl⟩

theorem goodJoin_bidir : GoodJoin (bidirJoin (α := α)) := fun _ _ _ => ⟨rfl, rfl⟩

theorem findG_zero (j : JoinFn α ε) (s : GState α ε) (x : α) (ins : Bool) :
    findG j 0 s x ins = none := rfl

theorem findG_succ (j : JoinFn α ε) (f : Nat) (s : GState α ε) (x : α) (ins : Bool) :
    findG j (f + 1) s x ins =
      match alookup s.parent x with
      | none => if ins then some (x, setRank0 (j s x none) x) else some (x, s)
      | some none => some (x, s)
      | some (some p) =>
        match findG j f s p false with
        | none => none
        | some (root, s1) => some (root, j s1 x (some root)) := rfl

theorem findKF_succ (j : JoinFn α ε) (k : α → α) (f : Nat) (s : GState α ε) (x : α)
    (ins : Bool) :
    findKF j k (f + 1) s x ins =
      match alookup s.parent (k x) with
      | none =>
        if ins then some (k x, setRank0 (j s (k x) none) (k x)) else some (k x, s)
      | some none => some (k x, s)
      | some (some p) =>
        match findKF j k f s p false with
        | none => none
        | some (root, s1) => some (root, j s1 (k x) (some root)) := rfl

end BasicEquations

/-! ## Concrete evaluations: the `merge` running-root defect and its fallout -/

section ConcreteTheorems

/-- Auxiliary state for C6: the `KeyEquivalence(key=succ)` state after
`merge(5, 6)` — keys `6` and `7` are merged, with buckets `{6: {5}, 7: {6}}`.
Key `7` has parent `6`, and `succ` maps the tracked key `6` back onto `7`. -/
def succMergedState : KState Nat Unit :=
  ⟨⟨[(6, none), (7, some 6)], [(6, 1), (7, 0)], ()⟩, [(6, [5]), (7, [6])]⟩

/-- Auxiliary state for C10: the `KeyEquivalence(key=succ)` state after
`merge(5, 9)` — keys `6` and `10` are inserted and merged (no parent hops
occur during the merge), with buckets `{6: {5}, 10: {9}}`. -/
def succPairState : KState Nat Unit :=
  ⟨⟨[(6, none), (10, some 6)], [(6, 1), (10, 0)], ()⟩, [(6, [5]), (10, [9])]⟩

/-- Auxiliary state for C7's counterexample: `KeyEquivalence(key=modKey)` after
`update(2)` (so key `0` is tracked with bucket `{0: {2}}`). -/
def modKeyState : KState Nat Unit := updateK baseJoin modKey initK [2]

/-- C1: `merge` does not fold all its arguments into one class.  After
`merge(0,1)`, `merge(2,3)` (two rank-1 trees) and `merge(4,0,2)`, the call
`are_equivalent(4, 0)` returns `False`: in `merge`'s loop the running `root`
variable is not updated when its tree is attached under the other root
(`cmp_rank < 0` branch), so the subsequent union links `4` to `2`'s tree and
abandons the link into `0`'s tree. -/
theorem merge_not_all_equivalent :
    (runE baseJoin 20 initE lostMergeOps).bind
        (fun s => (areEqvG baseJoin 20 s [4, 0]).map (fun rs => rs.1)) =
      some (Except.ok false) := by
  rfl

/-- C2: the parent map is not always a forest.  `merge(0,1)` followed by
`merge(2,0,3,1)` is a reachable call sequence after which `parent[0] = 2` and
`parent[2] = 0` — a two-element cycle. -/
theorem merge_creates_parent_cycle :
    runE baseJoin 20 initE cycleOps = some cycleState ∧
    alookup cycleState.parent 2 = some (some 0) ∧
    alookup cycleState.parent 0 = some (some 2) :=
  ⟨by rfl, by rfl, by rfl⟩

theorem cycleState_find_none (f : Nat) :
    findG baseJoin f cycleState 2 false = none ∧
    findG baseJoin f cycleState 0 false = none := by
  induction f with
  | zero => exact ⟨rfl, rfl⟩
  | succ f ih =>
    constructor
    · rw [findG_succ]
      simp only [show alookup cycleState.parent 2 = some (some 0) from rfl, ih.2]
    · rw [findG_succ]
      simp only [show alookup cycleState.parent 0 = some (some 2) from rfl, ih.1]

/-- C3: operations do not always run to completion.  On the reachable state
`cycleState` (see `cycleOps`), the recursive `_find(2)` — hence
`are_equivalent`, `partition`, `partitions` and any further `merge` naming an
object of that cycle — never terminates, for any recursion depth. -/
theorem find_diverges_on_reachable_state :
    runE baseJoin 20 initE cycleOps = some cycleState ∧
    ∀ f, findG baseJoin f cycleState 2 false = none :=
  ⟨by rfl, fun f => (cycleState_find_none f).1⟩

/-- C5: the bidirectional `partition` can differ from the base `partition`
after the identical `update`/`merge` sequence.  After `lostMergeOps`, the
bidirectional variant's `partition(0)` contains `4` (through the stale child
link left when `merge` re-parented `4` away from `0`'s tree), while the base
variant's `partition(0)` does not. -/
theorem bidir_partition_differs_from_base :
    (runB 20 initB lostMergeOps).bind
        (fun s =>
          (partitionBWith (fun st z => findG bidirJoin 20 st z false) 20 s 0).map
            Prod.fst) =
      some [0, 1, 4] ∧
    (runE baseJoin 20 initE lostMergeOps).bind
        (fun s =>
          (partitionWith (fun st z => findG baseJoin 20 st z false) s 0).map
            Prod.fst) =
      some [0, 1] ∧
    (4 : Nat) ∈ [0, 1, 4] ∧ (4 : Nat) ∉ [0, 1] :=
  ⟨by rfl, by rfl, by decide, by decide⟩

/-- C4 counterexample: the children index is not exactly the inverse of the
parent map.  After `staleChildOps` (whose final `are_equivalent(3,3)`
path-compresses `3` onto the root `0`), `parent[3] = 0` yet `3` is still
recorded as a child of `2`: `_join` never removes an object from its former
parent's children set. -/
theorem children_index_not_inverse :
    runB 20 initB staleChildOps = some staleChildState ∧
    alookup staleChildState.parent 3 = some (some 0) ∧
    3 ∈ childGet staleChildState.extra 2 ∧
    (0 : Nat) ≠ 2 :=
  ⟨by rfl, by rfl, by decide, by decide⟩

/-- C7 counterexample: in the keyed variant, `partition` of a never-inserted
object need not be empty.  With key function `n % 2`, after `update(2)` the
only bucket is `{0: {2}}` (so `4` was never inserted), yet `partition(4)`
returns `{2}`. -/
theorem keyed_partition_of_uninserted_nonempty :
    (partitionK baseJoin modKey 20 modKeyState 4).map Prod.fst = some [2] ∧
    modKeyState.buckets = [(0, [2])] ∧
    alookup modKeyState.base.parent 4 = none ∧
    (4 : Nat) ∉ ([2] : List Nat) ∧
    some [2] ≠ some ([] : List Nat) :=
  ⟨by rfl, by rfl, by rfl, by decide, by decide⟩

/-- C10 counterexample: `KeyEquivalence.partition(x)` is not the union of the
buckets of the keys in the class of `key(x)`.  With the (non-idempotent) key
function `succ`, after `merge(5, 9)` the keys `6` and `10` form one class with
buckets `{6: {5}, 10: {9}}`, so the claimed union for `partition(5)` is
`{5, 9}`; the code returns `{5}`: every internal find dispatches to the keyed
`_find`, so the scan compares the root of `key(10) = 11` — not of `10` —
against the root of `key(key(5)) = 7`, and only key `6` (which also resolves
to the untracked `7`) passes. -/
theorem keyed_partition_not_class_bucket_union :
    mergeK baseJoin Nat.succ 20 initK [5, 9] = some succPairState ∧
    (partitionK baseJoin Nat.succ 20 succPairState 5).map Prod.fst = some [5] ∧
    specKeyedPartition 20 succPairState Nat.succ 5 = [5, 9] ∧
    (9 : Nat) ∈ ([5, 9] : List Nat) ∧ (9 : Nat) ∉ ([5] : List Nat) :=
  ⟨by rfl, by rfl, by rfl, by decide, by decide⟩

end ConcreteTheorems

/-! ## C8 and C9: unseen objects and the empty-arguments contract -/

section ErrorHandling

variable {α ε : Type} [DecidableEq α]

theorem areEqvGoG_no_error (j : JoinFn α ε) (f : Nat) :
    ∀ (objs : List α) (root : α) (s : GState α ε) (e : String) (s' : GState α ε),
      areEqvGoG j f objs root s ≠ some (.error e, s') := by
  intro objs
  induction objs with
  | nil =>
    intro root s e s' h
    simp [areEqvGoG] at h
  | cons o rest ih =>
    intro root s e s' h
    cases hf : findG j f s o false with
    | none => simp [areEqvGoG, hf] at h
    | some rs =>
      obtain ⟨r, s1⟩ := rs
      simp only [areEqvGoG, hf] at h
      by_cases hr : r = root
      · rw [if_pos hr] at h
        exact ih root s1 e s' h
      · rw [if_neg hr] at h
        simp at h

/-- C8: objects never inserted behave as singleton classes, and the query does
not insert them.  In any state where `x` and `y` are absent from
`_child2parent` and distinct: `are_equivalent(x, x)` returns `True`,
`are_equivalent(x, y)` returns `False`, and both calls leave the state
(in particular the set of tracked elements) entirely unchanged. -/
theorem unseen_objects_are_singletons (j : JoinFn α ε) (f : Nat) (s : GState α ε)
    (x y : α) (hx : alookup s.parent x = none) (hy : alookup s.parent y = none)
    (hxy : x ≠ y) :
    areEqvG j (f + 1) s [x, x] = some (.ok true, s) ∧
    areEqvG j (f + 1) s [x, y] = some (.ok false, s) := by
  have hfx : findG j (f + 1) s x false = some (x, s) := by
    rw [findG_succ, hx]
    rfl
  have hfy : findG j (f + 1) s y false = some (y, s) := by
    rw [findG_succ, hy]
    rfl
  constructor
  · simp [areEqvG, areEqvGoG, hfx]
  · simp [areEqvG, areEqvGoG, hfx, hfy, Ne.symm hxy]

theorem unseen_objects_are_singletons_witness :
    areEqvG baseJoin 1 (initE (α := Nat)) [0, 0] = some (.ok true, initE) ∧
    areEqvG baseJoin 1 (initE (α := Nat)) [0, 1] = some (.ok false, initE) :=
  unseen_objects_are_singletons baseJoin 0 initE 0 1 rfl rfl (by decide)

/-- C9: `are_equivalent` fails exactly on an empty argument list, and `merge`
with no arguments is a silent no-op.  In any state: `are_equivalent()` raises
the `ValueError` (before touching the state), `merge()` returns with the state
unchanged, and `are_equivalent` with a non-empty argument list never produces
an error (its only other non-result is non-termination of `_find`). -/
theorem are_equivalent_raises_iff_empty (j : JoinFn α ε) (f : Nat) (s : GState α ε) :
    areEqvG j f s [] = some (.error "No objects given", s) ∧
    mergeG j f s [] = some s ∧
    (∀ objs : List α, objs ≠ [] →
      ∀ (e : String) (s' : GState α ε), areEqvG j f s objs ≠ some (.error e, s')) := by
  refine ⟨rfl, rfl, ?_⟩
  intro objs hne e s' h
  cases objs with
  | nil => exact hne rfl
  | cons o rest =>
    cases hf : findG j f s o false with
    | none => simp [areEqvG, hf] at h
    | some rs =>
      obtain ⟨root, s1⟩ := rs
      simp only [areEqvG, hf] at h
      exact areEqvGoG_no_error j f rest root s1 e s' h

theorem are_equivalent_raises_iff_empty_witness :
    areEqvG baseJoin 1 (initE (α := Nat)) [] =
        some (.error "No objects given", initE) ∧
    mergeG baseJoin 1 (initE (α := Nat)) [] = some initE ∧
    areEqvG baseJoin 1 (initE (α := Nat)) [0] ≠ some (.error "No objects given", initE) :=
  ⟨(are_equivalent_raises_iff_empty baseJoin 1 initE).1,
   (are_equivalent_raises_iff_empty baseJoin 1 initE).2.1,
   (are_equivalent_raises_iff_empty baseJoin 1 initE).2.2 [0] (by decide)
     "No objects given" initE⟩

end ErrorHandling

/-! ## Root semantics: what `_find` computes and preserves -/

section RootLemmas

variable {α ε : Type} [DecidableEq α]

theorem rootF_succ (f : Nat) (s : GState α ε) (x : α) :
    rootF (f + 1) s x =
      match alookup s.parent x with
      | none => some x
      | some none => some x
      | some (some p) => rootF f s p := rfl

theorem rootF_mono {s : GState α ε} :
    ∀ {g g' : Nat} {z w : α}, rootF g s z = some w → g ≤ g' → rootF g' s z = some w := by
  intro g
  induction g with
  | zero => intro g' z w h; simp [rootF] at h
  | succ g ih =>
    intro g' z w h hle
    obtain ⟨g'', rfl⟩ : ∃ g'', g' = g'' + 1 := ⟨g' - 1, by omega⟩
    rw [rootF_succ] at h ⊢
    cases hz : alookup s.parent z with
    | none => rw [hz] at h; exact h
    | some po =>
      cases po with
      | none => rw [hz] at h; exact h
      | some p =>
        rw [hz] at h
        exact ih h (by omega)

theorem Root_det {s : GState α ε} {z w w' : α} (h : Root s z w) (h' : Root s z w') :
    w = w' := by
  obtain ⟨g, hg⟩ := h
  obtain ⟨g', hg'⟩ := h'
  have h1 := rootF_mono hg (Nat.le_max_left g g')
  have h2 := rootF_mono hg' (Nat.le_max_right g g')
  rw [h1] at h2
  exact Option.some_inj.mp h2

theorem Root_of_unseen {s : GState α ε} {z : α} (h : alookup s.parent z = none) :
    Root s z z :=
  ⟨1, by rw [rootF_succ, h]⟩

theorem Root_of_rootEntry {s : GState α ε} {z : α}
    (h : alookup s.parent z = some none) : Root s z z :=
  ⟨1, by rw [rootF_succ, h]⟩

theorem Root_of_rootish {s : GState α ε} {z : α}
    (h : alookup s.parent z = none ∨ alookup s.parent z = some none) :
    Root s z z := by
  rcases h with h | h
  · exact Root_of_unseen h
  · exact Root_of_rootEntry h

theorem Root_cons {s : GState α ε} {z p : α}
    (h : alookup s.parent z = some (some p)) {w : α} :
    Root s z w ↔ Root s p w := by
  constructor
  · rintro ⟨g, hg⟩
    cases g with
    | zero => simp [rootF] at hg
    | succ g =>
      rw [rootF_succ, h] at hg
      exact ⟨g, hg⟩
  · rintro ⟨g, hg⟩
    exact ⟨g + 1, by rw [rootF_succ, h]; exact hg⟩

theorem Root_end {s : GState α ε} :
    ∀ {g : Nat} {z w : α}, rootF g s z = some w →
      alookup s.parent w = none ∨ alookup s.parent w = some none := by
  intro g
  induction g with
  | zero => intro z w h; simp [rootF] at h
  | succ g ih =>
    intro z w h
    rw [rootF_succ] at h
    cases hz : alookup s.parent z with
    | none =>
      rw [hz] at h
      cases h
      exact Or.inl hz
    | some po =>
      cases po with
      | none =>
        rw [hz] at h
        cases h
        exact Or.inr hz
      | some p =>
        rw [hz] at h
        exact ih h

theorem Root_rootish {s : GState α ε} {z w : α} (h : Root s z w) :
    alookup s.parent w = none ∨ alookup s.parent w = some none := by
  obtain ⟨g, hg⟩ := h
  exact Root_end hg

theorem Root_d_le {s : GState α ε} {d : α → Nat} (hd : Wfd s d) :
    ∀ {g : Nat} {z w : α}, rootF g s z = some w → d w ≤ d z := by
  intro g
  induction g with
  | zero => intro z w h; simp [rootF] at h
  | succ g ih =>
    intro z w h
    rw [rootF_succ] at h
    cases hz : alookup s.parent z with
    | none => rw [hz] at h; cases h; exact Nat.le_refl _
    | some po =>
      cases po with
      | none => rw [hz] at h; cases h; exact Nat.le_refl _
      | some p =>
        rw [hz] at h
        exact Nat.le_trans (ih h) (Nat.le_of_lt (hd z p hz))

theorem rootF_term {s : GState α ε} {d : α → Nat} (hd : Wfd s d) :
    ∀ {f : Nat} {z : α}, d z < f → ∃ w, rootF f s z = some w := by
  intro f
  induction f with
  | zero => intro z h; omega
  | succ f ih =>
    intro z _
    rw [rootF_succ]
    cases hz : alookup s.parent z with
    | none => exact ⟨z, rfl⟩
    | some po =>
      cases po with
      | none => exact ⟨z, rfl⟩
      | some p =>
        have hp : d p < f := by
          have := hd z p hz
          omega
        exact ih hp

theorem Root_total {s : GState α ε} {d : α → Nat} (hd : Wfd s d) (z : α) :
    ∃ w, Root s z w := by
  obtain ⟨w, hw⟩ := rootF_term hd (Nat.lt_succ_self (d z))
  exact ⟨w, ⟨d z + 1, hw⟩⟩

/-- Re-pointing `x` to its own root `r` preserves every element's root
(the path-compression step). -/
theorem reroot_preserves {t t' : GState α ε} {x r : α}
    (hx : Root t x r) (hxr : x ≠ r)
    (hparent : t'.parent = aset t.parent x (some r)) :
    ∀ {g : Nat} {z w : α}, rootF g t z = some w → Root t' z w := by
  intro g
  induction g with
  | zero => intro z w h; simp [rootF] at h
  | succ g ih =>
    intro z w h
    rw [rootF_succ] at h
    by_cases hzx : z = x
    · have hz1 : Root t z w := ⟨g + 1, by rw [rootF_succ]; exact h⟩
      have hw : w = r := Root_det (hzx ▸ hz1) hx
      rw [hzx, hw]
      have hx' : alookup t'.parent x = some (some r) := by
        rw [hparent, alookup_aset_self]
      have hroot : Root t' r r := by
        apply Root_of_rootish
        rw [hparent, alookup_aset_other (Ne.symm hxr)]
        exact Root_rootish hx
      exact (Root_cons hx').mpr hroot
    · cases hz : alookup t.parent z with
      | none =>
        rw [hz] at h
        cases h
        apply Root_of_unseen
        rw [hparent, alookup_aset_other hzx, hz]
      | some po =>
        cases po with
        | none =>
          rw [hz] at h
          cases h
          apply Root_of_rootEntry
          rw [hparent, alookup_aset_other hzx, hz]
        | some p =>
          rw [hz] at h
          have hz' : alookup t'.parent z = some (some p) := by
            rw [hparent, alookup_aset_other hzx, hz]
          exact (Root_cons hz').mpr (ih h)

/-- Inserting a fresh root (`_join(obj)` with no parent on an unseen object)
preserves every element's root. -/
theorem insert_preserves {t t' : GState α ε} {x : α}
    (hx : alookup t.parent x = none)
    (hparent : t'.parent = aset t.parent x none) :
    ∀ {g : Nat} {z w : α}, rootF g t z = some w → Root t' z w := by
  intro g
  induction g with
  | zero => intro z w h; simp [rootF] at h
  | succ g ih =>
    intro z w h
    rw [rootF_succ] at h
    by_cases hzx : z = x
    · rw [hzx] at h
      rw [hx] at h
      cases h
      rw [hzx]
      apply Root_of_rootEntry
      rw [hparent, alookup_aset_self]
    · cases hz : alookup t.parent z with
      | none =>
        rw [hz] at h
        cases h
        apply Root_of_unseen
        rw [hparent, alookup_aset_other hzx, hz]
      | some po =>
        cases po with
        | none =>
          rw [hz] at h
          cases h
          apply Root_of_rootEntry
          rw [hparent, alookup_aset_other hzx, hz]
        | some p =>
          rw [hz] at h
          have hz' : alookup t'.parent z = some (some p) := by
            rw [hparent, alookup_aset_other hzx, hz]
          exact (Root_cons hz').mpr (ih h)

end RootLemmas

/-! ## What `_find` does to the state -/

section FindLemmas

variable {α ε : Type} [DecidableEq α]

theorem isSome_aset_preserve {β' : Type} {l : List (α × β')} {z x : α} (v : β')
    (h : (alookup l z).isSome) : (alookup (aset l x v) z).isSome := by
  by_cases hz : z = x
  · rw [hz, alookup_aset_self]
    rfl
  · rw [alookup_aset_other hz]
    exact h

theorem findG_sound {j : JoinFn α ε} :
    ∀ {f : Nat} {s : GState α ε} {x : α} {ins : Bool} {r : α} {s' : GState α ε},
      findG j f s x ins = some (r, s') → rootF f s x = some r := by
  intro f
  induction f with
  | zero =>
    intro s x ins r s' h
    simp [findG] at h
  | succ f ih =>
    intro s x ins r s' h
    rw [findG_succ] at h
    rw [rootF_succ]
    split at h
    · cases ins with
      | false =>
        have h' : some (x, s) = some (r, s') := by simpa using h
        cases h'
        rfl
      | true =>
        have h' : some (x, setRank0 (j s x none) x) = some (r, s') := by simpa using h
        cases h'
        rfl
    · cases h
      rfl
    · split at h
      · exact absurd h (by simp)
      · next root s1 hf =>
          cases h
          exact ih hf

theorem findG_main {j : JoinFn α ε} (hj : GoodJoin j) {d : α → Nat}
    {s : GState α ε} (hd : Wfd s d) :
    ∀ {f : Nat} {x : α} {ins : Bool} {r : α} {s' : GState α ε},
      findG j f s x ins = some (r, s') →
      Wfd s' d ∧ d r ≤ d x ∧
      (∀ z w, Root s z w → Root s' z w) ∧
      (∀ z, alookup s.parent z = some none → alookup s'.parent z = some none) ∧
      (∀ z, (alookup s.parent z).isSome → (alookup s'.parent z).isSome) ∧
      (ins = false → s'.parent.map Prod.fst = s.parent.map Prod.fst) ∧
      (alookup s'.parent r = none ∨ alookup s'.parent r = some none) ∧
      (ClosedS s → ClosedS s') ∧
      (ClosedS s → (ins = true ∨ (alookup s.parent x).isSome) →
        (alookup s'.parent r).isSome) := by
  intro f
  induction f with
  | zero =>
    intro x ins r s' h
    simp [findG] at h
  | succ f ih =>
    intro x ins r s' h
    rw [findG_succ] at h
    split at h
    · next hx =>
        cases ins with
        | false =>
          have h' : some (x, s) = some (r, s') := by simpa using h
          cases h'
          refine ⟨hd, Nat.le_refl _, fun z w hz => hz, fun z hz => hz, fun z hz => hz,
            fun _ => rfl, Or.inl hx, fun hc => hc, fun _ hor => ?_⟩
          rcases hor with h1 | h1
          · exact absurd h1 (by decide)
          · rw [hx] at h1
            simp at h1
        | true =>
          have h' : some (x, setRank0 (j s x none) x) = some (r, s') := by simpa using h
          cases h'
          have hpar : (setRank0 (j s x none) x).parent = aset s.parent x none := by
            have hjx := (hj s x none).1
            simp [setRank0, hjx]
          refine ⟨?_, Nat.le_refl _, ?_, ?_, ?_, ?_, ?_, ?_, ?_⟩
          · intro y q hyq
            rw [hpar, alookup_aset] at hyq
            by_cases hy : y = x
            · rw [if_pos hy] at hyq
              cases hyq
            · rw [if_neg hy] at hyq
              exact hd y q hyq
          · rintro z w ⟨g, hg⟩
            exact insert_preserves hx hpar hg
          · intro z hz
            have hzx : z ≠ x := fun he => by rw [he, hx] at hz; cases hz
            rw [hpar, alookup_aset_other hzx]
            exact hz
          · intro z hz
            rw [hpar]
            exact isSome_aset_preserve _ hz
          · intro hfalse
            cases hfalse
          · rw [hpar, alookup_aset_self]
            exact Or.inr rfl
          · intro hc y q hyq
            rw [hpar, alookup_aset] at hyq
            by_cases hy : y = x
            · rw [if_pos hy] at hyq
              cases hyq
            · rw [if_neg hy] at hyq
              rw [hpar]
              exact isSome_aset_preserve _ (hc y q hyq)
          · intro _ _
            rw [hpar, alookup_aset_self]
            rfl
    · next hx =>
        cases h
        refine ⟨hd, Nat.le_refl _, fun z w hz => hz, fun z hz => hz, fun z hz => hz,
          fun _ => rfl, Or.inr hx, fun hc => hc, fun _ _ => ?_⟩
        rw [hx]
        rfl
    · next p hx =>
        split at h
        · exact absurd h (by simp)
        · next r s1 hf =>
            cases h
            obtain ⟨ih1, ih2, ih3, ih4, ih5, ih6, ih7, ih8, ih9⟩ := ih hf
            have hdp : d p < d x := hd x p hx
            have hdrx : d r < d x := Nat.lt_of_le_of_lt ih2 hdp
            have hxnroot : x ≠ r := by
              intro he
              rw [← he] at hdrx
              exact absurd hdrx (lt_irrefl _)
            have hpar : (j s1 x (some r)).parent = aset s1.parent x (some r) :=
              (hj s1 x (some r)).1
            have hRsp : Root s p r := ⟨f, findG_sound hf⟩
            have hRsx : Root s x r := (Root_cons hx).mpr hRsp
            have hR1x : Root s1 x r := ih3 x r hRsx
            have hrootok : alookup (j s1 x (some r)).parent r =
                alookup s1.parent r := by
              rw [hpar]
              exact alookup_aset_other (Ne.symm hxnroot) _
            refine ⟨?_, Nat.le_of_lt hdrx, ?_, ?_, ?_, ?_, ?_, ?_, ?_⟩
            · intro y q hyq
              rw [hpar, alookup_aset] at hyq
              by_cases hy : y = x
              · rw [if_pos hy] at hyq
                cases hyq
                rw [hy]
                exact hdrx
              · rw [if_neg hy] at hyq
                exact ih1 y q hyq
            · rintro z w hz
              obtain ⟨g, hg⟩ := ih3 z w hz
              exact reroot_preserves hR1x hxnroot hpar hg
            · intro z hz
              have hzx : z ≠ x := fun he => by rw [he, hx] at hz; cases hz
              rw [hpar, alookup_aset_other hzx]
              exact ih4 z hz
            · intro z hz
              rw [hpar]
              exact isSome_aset_preserve _ (ih5 z hz)
            · intro hins
              rw [hpar]
              have hkeys1 : s1.parent.map Prod.fst = s.parent.map Prod.fst := ih6 rfl
              have hxs1 : (alookup s1.parent x).isSome := by
                apply ih5
                rw [hx]
                rfl
              rw [aset_keys_of_mem _ _ _ hxs1]
              exact hkeys1
            · rw [hrootok]
              exact ih7
            · intro hc
              have hc1 : ClosedS s1 := ih8 hc
              have hpin : (alookup s.parent p).isSome := by
                have := hc x p hx
                exact this
              have hrin : (alookup s1.parent r).isSome := ih9 hc (Or.inr hpin)
              intro y q hyq
              rw [hpar, alookup_aset] at hyq
              by_cases hy : y = x
              · rw [if_pos hy] at hyq
                cases hyq
                rw [hrootok]
                exact hrin
              · rw [if_neg hy] at hyq
                rw [hpar]
                exact isSome_aset_preserve _ (hc1 y q hyq)
            · intro hc _
              rw [hrootok]
              have hpin : (alookup s.parent p).isSome := hc x p hx
              exact ih9 hc (Or.inr hpin)

theorem findG_term {j : JoinFn α ε} {d : α → Nat} {s : GState α ε} (hd : Wfd s d) :
    ∀ {f : Nat} {x : α} (ins : Bool), d x < f → (findG j f s x ins).isSome := by
  intro f
  induction f with
  | zero =>
    intro x ins h
    omega
  | succ f ih =>
    intro x ins _
    rw [findG_succ]
    split
    · cases ins <;> rfl
    · rfl
    · next p hx =>
        have hp : d p < f := by
          have := hd x p hx
          omega
        have hsome := ih (x := p) false hp
        cases hf : findG j f s p false with
        | none =>
          rw [hf] at hsome
          simp at hsome
        | some rs =>
          obtain ⟨rt, s1⟩ := rs
          rfl

/-- After a successful find, the object points directly at the returned root
(or is itself the root / untracked). -/
theorem findG_parent_post {j : JoinFn α ε} (hj : GoodJoin j) {f : Nat}
    {s : GState α ε} {x : α} {ins : Bool} {r : α} {s' : GState α ε}
    (h : findG j f s x ins = some (r, s')) :
    r = x ∨ alookup s'.parent x = some (some r) := by
  cases f with
  | zero => simp [findG] at h
  | succ f =>
    rw [findG_succ] at h
    split at h
    · cases ins with
      | false =>
        have h' : some (x, s) = some (r, s') := by simpa using h
        cases h'
        exact Or.inl rfl
      | true =>
        have h' : some (x, setRank0 (j s x none) x) = some (r, s') := by simpa using h
        cases h'
        exact Or.inl rfl
    · cases h
      exact Or.inl rfl
    · split at h
      · exact absurd h (by simp)
      · next r s1 hf =>
          cases h
          right
          rw [(hj s1 x (some r)).1, alookup_aset_self]

/-- Bidirectional find: after a successful find, the object is recorded among
the returned r's children (unless it is itself the r / untracked). -/
theorem findB_child_post {f : Nat} {s : BState α} {x : α} {ins : Bool} {r : α}
    {s' : BState α} (h : findG bidirJoin f s x ins = some (r, s')) :
    r = x ∨ x ∈ childGet s'.extra r := by
  cases f with
  | zero => simp [findG] at h
  | succ f =>
    rw [findG_succ] at h
    split at h
    · cases ins with
      | false =>
        have h' : some (x, s) = some (r, s') := by simpa using h
        cases h'
        exact Or.inl rfl
      | true =>
        have h' : some (x, setRank0 (bidirJoin s x none) x) = some (r, s') := by
          simpa using h
        cases h'
        exact Or.inl rfl
    · cases h
      exact Or.inl rfl
    · split at h
      · exact absurd h (by simp)
      · next r s1 hf =>
          cases h
          right
          show x ∈ childGet (madd s1.extra r x) r
          exact mem_childGet_madd_self _ _ _

end FindLemmas

/-! ## Linking two roots (the union step of `merge`) -/

section LinkLemmas

variable {α ε : Type} [DecidableEq α]

theorem linkRoots {s t' : GState α ε} {d : α → Nat} (hd : Wfd s d) {u v : α}
    (hu : alookup s.parent u = none ∨ alookup s.parent u = some none)
    (hv : alookup s.parent v = none ∨ alookup s.parent v = some none)
    (huv : u ≠ v) (hpar : t'.parent = aset s.parent u (some v)) :
    (∀ z w, Root s z w → Root t' z (if w = u then v else w)) ∧ (∃ d', Wfd t' d') := by
  have hvny : alookup t'.parent v = alookup s.parent v := by
    rw [hpar]
    exact alookup_aset_other (Ne.symm huv) _
  have hRv : Root t' v v := by
    apply Root_of_rootish
    rw [hvny]
    exact hv
  have hRu : Root t' u v := by
    have hul : alookup t'.parent u = some (some v) := by
      rw [hpar, alookup_aset_self]
    exact (Root_cons hul).mpr hRv
  constructor
  · rintro z w ⟨g, hg⟩
    induction g generalizing z with
    | zero => simp [rootF] at hg
    | succ g ih =>
      rw [rootF_succ] at hg
      by_cases hzu : z = u
      · have hw : w = u := by
          rcases hu with hu' | hu'
          · rw [hzu, hu'] at hg
            cases hg
            rfl
          · rw [hzu, hu'] at hg
            cases hg
            rfl
        rw [hzu, hw, if_pos rfl]
        exact hRu
      · cases hz : alookup s.parent z with
        | none =>
          rw [hz] at hg
          cases hg
          rw [if_neg hzu]
          apply Root_of_unseen
          rw [hpar, alookup_aset_other hzu]
          exact hz
        | some po =>
          cases po with
          | none =>
            rw [hz] at hg
            cases hg
            rw [if_neg hzu]
            apply Root_of_rootEntry
            rw [hpar, alookup_aset_other hzu]
            exact hz
          | some p =>
            rw [hz] at hg
            have hz' : alookup t'.parent z = some (some p) := by
              rw [hpar, alookup_aset_other hzu]
              exact hz
            exact (Root_cons hz').mpr (ih p hg)
  · classical
    refine ⟨fun z => d z + (if Root s z u then d v + 1 else 0), ?_⟩
    intro y q hyq
    rw [hpar, alookup_aset] at hyq
    by_cases hy : y = u
    · rw [if_pos hy] at hyq
      cases hyq
      have hvu : ¬ Root s v u := by
        intro hr
        exact huv (Root_det hr (Root_of_rootish hv))
      have huu : Root s u u := Root_of_rootish hu
      rw [hy]
      show d v + (if Root s v u then d v + 1 else 0) <
        d u + (if Root s u u then d v + 1 else 0)
      rw [if_neg hvu, if_pos huu]
      omega
    · rw [if_neg hy] at hyq
      have hstep := hd y q hyq
      have hiff : ∀ w, Root s y w ↔ Root s q w := fun w => Root_cons hyq
      show d q + (if Root s q u then d v + 1 else 0) <
        d y + (if Root s y u then d v + 1 else 0)
      by_cases hyu : Root s y u
      · rw [if_pos hyu, if_pos ((hiff u).mp hyu)]
        omega
      · rw [if_neg hyu, if_neg (fun hq => hyu ((hiff u).mpr hq))]
        omega

theorem closed_link {s t' : GState α ε} (hc : ClosedS s) {u v : α}
    (hpar : t'.parent = aset s.parent u (some v))
    (hv : (alookup s.parent v).isSome) : ClosedS t' := by
  intro y q hyq
  rw [hpar, alookup_aset] at hyq
  by_cases hy : y = u
  · rw [if_pos hy] at hyq
    cases hyq
    rw [hpar]
    exact isSome_aset_preserve _ hv
  · rw [if_neg hy] at hyq
    rw [hpar]
    exact isSome_aset_preserve _ (hc y q hyq)

end LinkLemmas

/-! ## Two-argument `merge` and `are_equivalent` on well-formed states -/

section MergeTwo

variable {α ε : Type} [DecidableEq α]

theorem mergeG_two {j : JoinFn α ε} (hj : GoodJoin j) {d : α → Nat}
    {s : GState α ε} (hd : Wfd s d) (hc : ClosedS s) {f : Nat} {x y : α}
    {s3 : GState α ε} (hm : mergeG j f s [x, y] = some s3) :
    ∃ w, Root s3 x w ∧ Root s3 y w ∧ ClosedS s3 ∧ ∃ d3, Wfd s3 d3 := by
  cases hf1 : findG j f s x true with
  | none => simp [mergeG, hf1] at hm
  | some rs1 =>
    obtain ⟨r1, s1⟩ := rs1
    simp only [mergeG, hf1] at hm
    cases hstep : mergeStepG j f r1 s1 y with
    | none => simp [mergeGoG, hstep] at hm
    | some rs' =>
      obtain ⟨r', s2'⟩ := rs'
      simp only [mergeGoG, hstep, Option.map_some] at hm
      have hs3 : s2' = s3 := by simpa using hm
      subst hs3
      obtain ⟨m1, m2, m3, m4, m5, m6, m7, m8, m9⟩ := findG_main hj hd hf1
      have hR1x : Root s1 x r1 := m3 x r1 ⟨f, findG_sound hf1⟩
      have hr1mem : (alookup s1.parent r1).isSome := m9 hc (Or.inl rfl)
      have hr1root : alookup s1.parent r1 = some none := by
        rcases m7 with h7 | h7
        · rw [h7] at hr1mem
          cases hr1mem
        · exact h7
      have hc1 : ClosedS s1 := m8 hc
      cases hf2 : findG j f s1 y true with
      | none => simp [mergeStepG, hf2] at hstep
      | some rs2 =>
        obtain ⟨r2, s2⟩ := rs2
        obtain ⟨n1, n2, n3, n4, n5, n6, n7, n8, n9⟩ := findG_main hj m1 hf2
        have hR2x : Root s2 x r1 := n3 x r1 hR1x
        have hR2y : Root s2 y r2 := n3 y r2 ⟨f, findG_sound hf2⟩
        have hr1root2 : alookup s2.parent r1 = some none := n4 r1 hr1root
        have hr2mem : (alookup s2.parent r2).isSome := n9 hc1 (Or.inl rfl)
        have hr2root2 : alookup s2.parent r2 = some none := by
          rcases n7 with h7 | h7
          · rw [h7] at hr2mem
            cases hr2mem
          · exact h7
        have hc2 : ClosedS s2 := n8 hc1
        simp only [mergeStepG, hf2] at hstep
        by_cases hgt : getRank s2 r1 > getRank s2 r2
        · rw [if_pos hgt] at hstep
          cases hstep
          have hne : r1 ≠ r2 := by
            intro he
            rw [he] at hgt
            exact absurd hgt (lt_irrefl _)
          have hpar : (j s2 r2 (some r1)).parent = aset s2.parent r2 (some r1) :=
            (hj s2 r2 (some r1)).1
          obtain ⟨htrans, hwf'⟩ :=
            linkRoots n1 (Or.inr hr2root2) (Or.inr hr1root2) (Ne.symm hne) hpar
          refine ⟨r1, ?_, ?_, ?_, hwf'⟩
          · have := htrans x r1 hR2x
            rw [if_neg hne] at this
            exact this
          · have := htrans y r2 hR2y
            rw [if_pos rfl] at this
            exact this
          · exact closed_link hc2 hpar (by rw [hr1root2]; rfl)
        · rw [if_neg hgt] at hstep
          by_cases hlt : getRank s2 r1 < getRank s2 r2
          · rw [if_pos hlt] at hstep
            cases hstep
            have hne : r1 ≠ r2 := by
              intro he
              rw [he] at hlt
              exact absurd hlt (lt_irrefl _)
            have hpar : (j s2 r1 (some r2)).parent = aset s2.parent r1 (some r2) :=
              (hj s2 r1 (some r2)).1
            obtain ⟨htrans, hwf'⟩ :=
              linkRoots n1 (Or.inr hr1root2) (Or.inr hr2root2) hne hpar
            refine ⟨r2, ?_, ?_, ?_, hwf'⟩
            · have := htrans x r1 hR2x
              rw [if_pos rfl] at this
              exact this
            · have := htrans y r2 hR2y
              rw [if_neg (Ne.symm hne)] at this
              exact this
            · exact closed_link hc2 hpar (by rw [hr2root2]; rfl)
          · rw [if_neg hlt] at hstep
            by_cases hne : r1 ≠ r2
            · rw [if_pos hne] at hstep
              cases hstep
              have hpar : (j (bumpRank s2 r1) r2 (some r1)).parent =
                  aset s2.parent r2 (some r1) :=
                (hj (bumpRank s2 r1) r2 (some r1)).1
              have hwfb : Wfd (bumpRank s2 r1) d := n1
              obtain ⟨htrans, hwf'⟩ :=
                linkRoots n1 (Or.inr hr2root2) (Or.inr hr1root2) (Ne.symm hne) hpar
              refine ⟨r1, ?_, ?_, ?_, hwf'⟩
              · have := htrans x r1 hR2x
                rw [if_neg hne] at this
                exact this
              · have := htrans y r2 hR2y
                rw [if_pos rfl] at this
                exact this
              · exact closed_link hc2 hpar (by rw [hr1root2]; rfl)
            · rw [if_neg hne] at hstep
              cases hstep
              push_neg at hne
              refine ⟨r1, hR2x, ?_, hc2, ⟨d, n1⟩⟩
              rw [hne]
              exact hR2y

theorem mergeG_two_term {j : JoinFn α ε} (hj : GoodJoin j) {d : α → Nat}
    {s : GState α ε} (hd : Wfd s d) {f : Nat} {x y : α}
    (hx : d x < f) (hy : d y < f) : (mergeG j f s [x, y]).isSome := by
  have h1 := findG_term (j := j) hd (x := x) true hx
  cases hf1 : findG j f s x true with
  | none =>
    rw [hf1] at h1
    cases h1
  | some rs1 =>
    obtain ⟨r1, s1⟩ := rs1
    obtain ⟨m1, _⟩ := findG_main hj hd hf1
    have h2 := findG_term (j := j) m1 (x := y) true hy
    simp only [mergeG, hf1]
    cases hf2 : findG j f s1 y true with
    | none =>
      rw [hf2] at h2
      cases h2
    | some rs2 =>
      obtain ⟨r2, s2⟩ := rs2
      simp only [mergeGoG, mergeStepG, hf2]
      by_cases hgt : getRank s2 r1 > getRank s2 r2
      · rw [if_pos hgt]
        rfl
      · rw [if_neg hgt]
        by_cases hlt : getRank s2 r1 < getRank s2 r2
        · rw [if_pos hlt]
          rfl
        · rw [if_neg hlt]
          by_cases hne : r1 ≠ r2
          · rw [if_pos hne]
            rfl
          · rw [if_neg hne]
            rfl

theorem areEqv_two_true {j : JoinFn α ε} (hj : GoodJoin j) {d : α → Nat}
    {s : GState α ε} (hd : Wfd s d) {x y w : α}
    (hx : Root s x w) (hy : Root s y w) {f : Nat} (hfx : d x < f) (hfy : d y < f) :
    ∃ s', areEqvG j f s [x, y] = some (.ok true, s') := by
  have h1 := findG_term (j := j) hd (x := x) false hfx
  cases hf1 : findG j f s x false with
  | none =>
    rw [hf1] at h1
    cases h1
  | some rs1 =>
    obtain ⟨r1, s1⟩ := rs1
    obtain ⟨m1, _, m3, _⟩ := findG_main hj hd hf1
    have hr1 : r1 = w := Root_det (⟨f, findG_sound hf1⟩ : Root s x r1) hx
    have h2 := findG_term (j := j) m1 (x := y) false hfy
    cases hf2 : findG j f s1 y false with
    | none =>
      rw [hf2] at h2
      cases h2
    | some rs2 =>
      obtain ⟨r2, s2⟩ := rs2
      have hr2 : r2 = w :=
        Root_det (⟨f, findG_sound hf2⟩ : Root s1 y r2) (m3 y w hy)
      refine ⟨s2, ?_⟩
      simp only [areEqvG, hf1, areEqvGoG, hf2]
      rw [hr1, hr2, if_pos rfl]

end MergeTwo

/-! ## C6: key-based equivalence semantics -/

section KeyedSemantics

/-- The keyed `_find` never terminates on key `6` of `succMergedState`, for
any recursion depth: the key function `succ` sends `6` to `7`, whose recorded
parent is `6`, and the recursive `self._find(6)` dispatches back to the keyed
`_find`, reproducing the same call. -/
theorem succState_findK_none (f : Nat) :
    findKF baseJoin Nat.succ f succMergedState.base 6 false = none := by
  induction f with
  | zero => rfl
  | succ f ih =>
    rw [findKF_succ]
    simp only [show alookup succMergedState.base.parent (Nat.succ 6) = some (some 6)
      from rfl, ih]

/-- C6: the claimed key semantics fail in the source.  With the deterministic
key function `succ`, the reachable call `merge(5, 6)` succeeds (its finds
insert the fresh keys `6` and `7` without following a parent link), but the
equal-key query `are_equivalent(6, 6)` — and likewise the differing-key query
`are_equivalent(5, 6)` after the explicit merge — never returns, for any
recursion depth: the inherited `_find` body recurses through `self._find`,
which dispatches back to `KeyEquivalence._find` and applies the key function
to the parent at every hop (`find(6)` resolves key `7`, whose parent is `6`,
and recurses on `find(6)`), so the claimed `True` is never produced. -/
theorem keyed_equivalence_query_diverges :
    mergeK baseJoin Nat.succ 20 initK [5, 6] = some succMergedState ∧
    (∀ f, areEqvK baseJoin Nat.succ f succMergedState [6, 6] = none) ∧
    (∀ f, areEqvK baseJoin Nat.succ f succMergedState [5, 6] = none) := by
  refine ⟨by rfl, ?_, ?_⟩
  · intro f
    simp only [areEqvK, succState_findK_none]
  · intro f
    cases f with
    | zero => rfl
    | succ n =>
      have h5 : findKF baseJoin Nat.succ (n + 1) succMergedState.base 5 false =
          some (6, succMergedState.base) := rfl
      simp only [areEqvK, h5, areEqvGoK, succState_findK_none, Option.map]

end KeyedSemantics

/-! ## Characterising `partition` -/

section PartitionChar

variable {α ε : Type} [DecidableEq α]

theorem le_foldr_max_base (L : List Nat) (b : Nat) : b ≤ L.foldr max b := by
  induction L with
  | nil => exact Nat.le_refl _
  | cons a L ih => exact Nat.le_trans ih (Nat.le_max_right a _)

theorem le_foldr_max_mem {L : List Nat} {a : Nat} (h : a ∈ L) (b : Nat) :
    a ≤ L.foldr max b := by
  induction L with
  | nil => simp at h
  | cons c L ih =>
    rcases List.mem_cons.mp h with he | h'
    · rw [he]
      exact Nat.le_max_left _ _
    · exact Nat.le_trans (ih h') (Nat.le_max_right c _)

theorem mem_of_alookup {β' : Type} {l : List (α × β')} {x : α} {v : β'}
    (h : alookup l x = some v) : (x, v) ∈ l := by
  induction l with
  | nil => simp [alookup] at h
  | cons kv rest ih =>
    obtain ⟨key, w⟩ := kv
    by_cases hx : x = key
    · subst hx
      simp only [alookup, if_pos rfl] at h
      cases h
      simp
    · simp only [alookup, if_neg hx] at h
      simp [ih h]

/-- In a closed state, the root of a tracked element is tracked. -/
theorem Root_mem_of_closed {s : GState α ε} (hc : ClosedS s) :
    ∀ {g : Nat} {z w : α}, rootF g s z = some w →
      (alookup s.parent z).isSome → (alookup s.parent w).isSome := by
  intro g
  induction g with
  | zero =>
    intro z w h _
    simp [rootF] at h
  | succ g ih =>
    intro z w h hz
    rw [rootF_succ] at h
    cases hlz : alookup s.parent z with
    | none =>
      rw [hlz] at hz
      cases hz
    | some po =>
      cases po with
      | none =>
        rw [hlz] at h
        cases h
        exact hz
      | some p =>
        rw [hlz] at h
        exact ih h (hc z p hlz)

/-- The scan loop of `Equivalence.partition` (with the dispatched `_find`
resolving `κ z`): it terminates and collects exactly the scanned objects whose
key resolves to the given root, measured in the original state `s`. -/
theorem partGo_char {j : JoinFn α ε} (hj : GoodJoin j) (κ : α → α) (f : Nat)
    {d : α → Nat} {s : GState α ε} (hd0 : Wfd s d) (w : α) :
    ∀ (os : List α) (acc : List α) (st : GState α ε),
      Wfd st d →
      (∀ z r, Root s z r → Root st z r) →
      (∀ z, z ∈ os → d (κ z) < f) →
      ∃ l s', partGo (fun t z => findG j f t (κ z) false) os w acc st = some (l, s') ∧
        ∀ z, z ∈ l ↔ z ∈ acc ∨ (z ∈ os ∧ Root s (κ z) w) := by
  intro os
  induction os with
  | nil =>
    intro acc st hW _ _
    exact ⟨acc, st, rfl, fun z => by simp⟩
  | cons z zs ih =>
    intro acc st hW hR hF
    have hterm := findG_term (j := j) hW (x := κ z) false (hF z (by simp))
    cases hf : findG j f st (κ z) false with
    | none =>
      rw [hf] at hterm
      cases hterm
    | some rs =>
      obtain ⟨r, st'⟩ := rs
      obtain ⟨w1, hw1⟩ := Root_total hd0 (κ z)
      have hr_st : Root st (κ z) w1 := hR _ _ hw1
      have hr_eq : r = w1 := Root_det ⟨f, findG_sound hf⟩ hr_st
      obtain ⟨m1, _, m3, _⟩ := findG_main hj hW hf
      have hR' : ∀ z' r', Root s z' r' → Root st' z' r' := fun z' r' hz =>
        m3 z' r' (hR z' r' hz)
      obtain ⟨l, s', hgo, hmem⟩ := ih (if r = w then acc ++ [z] else acc) st' m1 hR'
        (fun z' hz' => hF z' (by simp [hz']))
      refine ⟨l, s', ?_, ?_⟩
      · simp only [partGo, hf]
        exact hgo
      · intro z'
        rw [hmem z']
        by_cases hrw : r = w
        · rw [if_pos hrw]
          constructor
          · rintro (hz' | hz')
            · rcases List.mem_append.mp hz' with h' | h'
              · exact Or.inl h'
              · rw [List.mem_singleton] at h'
                refine Or.inr ⟨by rw [h']; exact List.mem_cons_self z zs, ?_⟩
                rw [h', ← hrw, hr_eq]
                exact hw1
            · exact Or.inr ⟨List.mem_cons_of_mem _ hz'.1, hz'.2⟩
          · rintro (h' | ⟨hmem', hroot⟩)
            · exact Or.inl (List.mem_append_left _ h')
            · rcases List.mem_cons.mp hmem' with he | he
              · exact Or.inl (List.mem_append_right _ (by rw [he]; exact List.mem_singleton_self z))
              · exact Or.inr ⟨he, hroot⟩
        · rw [if_neg hrw]
          constructor
          · rintro (h' | h')
            · exact Or.inl h'
            · exact Or.inr ⟨List.mem_cons_of_mem _ h'.1, h'.2⟩
          · rintro (h' | ⟨hmem', hroot⟩)
            · exact Or.inl h'
            · rcases List.mem_cons.mp hmem' with he | he
              · exfalso
                apply hrw
                rw [hr_eq]
                have hzw : Root s (κ z) w := by
                  rw [← he]
                  exact hroot
                exact Root_det hw1 hzw
              · exact Or.inr ⟨he, hroot⟩

/-- `Equivalence.partition` (with dispatched `_find` resolving `κ ·`), run on
a well-formed state: it terminates and returns exactly the tracked objects
whose key has the same root as the argument's key. -/
theorem partitionWith_char {j : JoinFn α ε} (hj : GoodJoin j) (κ : α → α)
    {d : α → Nat} {s : GState α ε} (hd : Wfd s d) (y : α) :
    ∃ f l s' w, partitionWith (fun t z => findG j f t (κ z) false) s y = some (l, s') ∧
      Root s (κ y) w ∧
      ∀ z, z ∈ l ↔ z ∈ s.parent.map Prod.fst ∧ Root s (κ z) w := by
  set L := s.parent.map Prod.fst with hL
  set f := ((L.map (fun z => d (κ z))).foldr max (d (κ y))) + 1 with hf
  have hy : d (κ y) < f := Nat.lt_succ_of_le (le_foldr_max_base _ _)
  have hall : ∀ z, z ∈ L → d (κ z) < f := by
    intro z hz
    have hmm : d (κ z) ∈ L.map (fun z => d (κ z)) := List.mem_map_of_mem _ hz
    exact Nat.lt_succ_of_le (le_foldr_max_mem hmm _)
  have hterm := findG_term (j := j) hd (x := κ y) false hy
  cases hfy : findG j f s (κ y) false with
  | none =>
    rw [hfy] at hterm
    cases hterm
  | some rs =>
    obtain ⟨r, s1⟩ := rs
    obtain ⟨m1, _, m3, _, _, m6, _⟩ := findG_main hj hd hfy
    have hkeys : s1.parent.map Prod.fst = L := m6 rfl
    have hRy : Root s (κ y) r := ⟨f, findG_sound hfy⟩
    obtain ⟨l, s', hgo, hmem⟩ := partGo_char hj κ f hd r L [] s1 m1
      (fun z' r' hz => m3 z' r' hz) hall
    refine ⟨f, l, s', r, ?_, hRy, ?_⟩
    · simp only [partitionWith, hfy, hkeys]
      exact hgo
    · intro z
      rw [hmem z]
      simp
end PartitionChar

/-! ## The keyed `_find` on key-fixed states -/

section KeyedBridge

variable {α ε : Type} [DecidableEq α]

/-- When every recorded parent is a fixed point of the key function, the keyed
`_find` coincides with the inherited `_find` applied once to the key: the
per-hop key applications are the identity on every parent actually visited. -/
theorem findKF_eq_findG {j : JoinFn α ε} {k : α → α} {s : GState α ε}
    (hfx : ∀ x p, alookup s.parent x = some (some p) → k p = p) :
    ∀ (f : Nat) (x : α) (ins : Bool), findKF j k f s x ins = findG j f s (k x) ins := by
  intro f
  induction f with
  | zero => intro x ins; rfl
  | succ f ih =>
    intro x ins
    rw [findKF_succ, findG_succ]
    cases hx : alookup s.parent (k x) with
    | none => rfl
    | some po =>
      cases po with
      | none => rfl
      | some p =>
        have hkp : k p = p := hfx _ _ hx
        simp only [ih p false, hkp]

/-- Under `KeyFixed` (with closedness and acyclicity), the scan loop of the
keyed partition coincides with the loop resolving `k z` through the inherited
`_find`: path compression preserves all three conditions. -/
theorem partGo_keyed_eq {j : JoinFn α ε} (hj : GoodJoin j) {k : α → α}
    {d : α → Nat} (f : Nat) :
    ∀ (os : List α) (w : α) (acc : List α) (st : GState α ε),
      Wfd st d → ClosedS st → KeyFixed k st →
      partGo (fun t z => findKF j k f t z false) os w acc st =
      partGo (fun t z => findG j f t (k z) false) os w acc st := by
  intro os
  induction os with
  | nil =>
    intro w acc st _ _ _
    rfl
  | cons z zs ih =>
    intro w acc st hW hC hT
    have heq : findKF j k f st z false = findG j f st (k z) false :=
      findKF_eq_findG (fun a p hp => hT p (hC a p hp)) f z false
    simp only [partGo, heq]
    cases hf : findG j f st (k z) false with
    | none => rfl
    | some rs =>
      obtain ⟨r, st'⟩ := rs
      obtain ⟨m1, _, _, _, _, m6, _, m8, _⟩ := findG_main hj hW hf
      have hkeys := m6 rfl
      have hT' : KeyFixed k st' := by
        intro y hy
        obtain ⟨v, hv⟩ := Option.isSome_iff_exists.mp hy
        have h1 : y ∈ st'.parent.map Prod.fst := mem_keys_of_alookup hv
        rw [hkeys] at h1
        exact hT y (alookup_isSome_of_mem_keys h1)
      exact ih w (if r = w then acc ++ [z] else acc) st' m1 (m8 hC) hT'

/-- Under `KeyFixed`, the engine part of the keyed partition coincides with
the inherited partition of the key resolved through `findG ∘ k` (the form
characterized by `partitionWith_char`). -/
theorem partitionWith_keyed_eq {j : JoinFn α ε} (hj : GoodJoin j) {k : α → α}
    {d : α → Nat} {s : GState α ε} (hW : Wfd s d) (hC : ClosedS s)
    (hT : KeyFixed k s) (f : Nat) (y : α) :
    partitionWith (fun t z => findKF j k f t z false) s y =
    partitionWith (fun t z => findG j f t (k z) false) s y := by
  have heq : findKF j k f s y false = findG j f s (k y) false :=
    findKF_eq_findG (fun a p hp => hT p (hC a p hp)) f y false
  simp only [partitionWith, heq]
  cases hf : findG j f s (k y) false with
  | none => rfl
  | some rs =>
    obtain ⟨r, s1⟩ := rs
    obtain ⟨m1, _, _, _, _, m6, _, m8, _⟩ := findG_main hj hW hf
    have hkeys := m6 rfl
    have hT1 : KeyFixed k s1 := by
      intro y' hy
      obtain ⟨v, hv⟩ := Option.isSome_iff_exists.mp hy
      have h1 : y' ∈ s1.parent.map Prod.fst := mem_keys_of_alookup hv
      rw [hkeys] at h1
      exact hT y' (alookup_isSome_of_mem_keys h1)
    exact partGo_keyed_eq hj f (s1.parent.map Prod.fst) r [] s1 m1 (m8 hC) hT1

end KeyedBridge

/-! ## The bidirectional DFS -/

section DfsLemmas

variable {α : Type} [DecidableEq α]

/-- Path compression preserves the ranking compatibility of the children
index (each newly recorded child hangs under its strictly shallower root). -/
theorem findB_childcompat {d : α → Nat} {s : BState α} (hd : Wfd s d)
    (hch : WfCh s d) :
    ∀ {f : Nat} {x : α} {ins : Bool} {r : α} {s' : BState α},
      findG bidirJoin f s x ins = some (r, s') → WfCh s' d := by
  intro f
  induction f with
  | zero =>
    intro x ins r s' h
    simp [findG] at h
  | succ f ih =>
    intro x ins r s' h
    rw [findG_succ] at h
    split at h
    · next hx =>
        cases ins with
        | false =>
          have h' : some (x, s) = some (r, s') := by simpa using h
          cases h'
          exact hch
        | true =>
          have h' : some (x, setRank0 (bidirJoin s x none) x) = some (r, s') := by
            simpa using h
          cases h'
          intro q c hqc
          exact hch q c hqc
    · next hx =>
        cases h
        exact hch
    · next p hx =>
        split at h
        · exact absurd h (by simp)
        · next r s1 hf =>
            cases h
            have hch1 : WfCh s1 d := ih hf
            obtain ⟨_, hle, _⟩ := findG_main goodJoin_bidir hd hf
            have hdr : d r < d x := Nat.lt_of_le_of_lt hle (hd x p hx)
            intro q c hqc
            have hqc' : c ∈ childGet (madd s1.extra r x) q := hqc
            rcases mem_childGet_madd_elim _ _ _ _ _ hqc' with ⟨hq, hc⟩ | hqc''
            · rw [hq, hc]
              exact hdr
            · exact hch1 q c hqc''

theorem dfsF_term {d : α → Nat} {ch : List (α × List α)} {M : Nat}
    (hedge : ∀ q c, c ∈ childGet ch q → d q < d c)
    (hbound : ∀ q c, c ∈ childGet ch q → d c ≤ M) :
    ∀ (n : Nat) (q : α), M + 1 < d q + (n + 1) → ∃ l, dfsF (n + 1) ch q = some l := by
  intro n
  induction n with
  | zero =>
    intro q hq
    have hempty : childGet ch q = [] := by
      cases hcg : childGet ch q with
      | nil => rfl
      | cons c cs =>
        exfalso
        have h1 : d q < d c := hedge q c (by rw [hcg]; exact List.mem_cons_self c cs)
        have h2 : d c ≤ M := hbound q c (by rw [hcg]; exact List.mem_cons_self c cs)
        omega
    refine ⟨[q], ?_⟩
    show (dfsListF (dfsF 0 ch) (childGet ch q)).map (q :: ·) = some [q]
    rw [hempty]
    rfl
  | succ n ih =>
    intro q hq
    have hlist : ∀ (cs : List α), (∀ c, c ∈ cs → c ∈ childGet ch q) →
        ∃ l, dfsListF (dfsF (n + 1) ch) cs = some l := by
      intro cs
      induction cs with
      | nil => intro _; exact ⟨[], rfl⟩
      | cons c cs ihc =>
        intro hsub
        obtain ⟨l1, hl1⟩ := ih c (by
          have hcc := hedge q c (hsub c (List.mem_cons_self c cs))
          omega)
        obtain ⟨l2, hl2⟩ := ihc (fun c' hc' => hsub c' (List.mem_cons_of_mem _ hc'))
        refine ⟨l1 ++ l2, ?_⟩
        simp only [dfsListF, hl1, hl2]
    obtain ⟨l, hl⟩ := hlist (childGet ch q) (fun c hc => hc)
    refine ⟨q :: l, ?_⟩
    show (dfsListF (dfsF (n + 1) ch) (childGet ch q)).map (q :: ·) = some (q :: l)
    rw [hl]
    rfl

theorem dfsF_mem_self {ch : List (α × List α)} {n : Nat} {q : α} {l : List α}
    (h : dfsF (n + 1) ch q = some l) : q ∈ l := by
  have h' : (dfsListF (dfsF n ch) (childGet ch q)).map (q :: ·) = some l := h
  cases hdl : dfsListF (dfsF n ch) (childGet ch q) with
  | none =>
    rw [hdl] at h'
    cases h'
  | some L =>
    rw [hdl] at h'
    cases h'
    exact List.mem_cons_self q L

omit [DecidableEq α] in
theorem dfsListF_mem {dfs1 : α → Option (List α)} :
    ∀ {cs : List α} {L : List α} {c : α},
      dfsListF dfs1 cs = some L → c ∈ cs →
      ∃ lc, dfs1 c = some lc ∧ ∀ z, z ∈ lc → z ∈ L := by
  intro cs
  induction cs with
  | nil =>
    intro L c _ hc
    simp at hc
  | cons c0 cs ih =>
    intro L c h hc
    cases h1 : dfs1 c0 with
    | none => simp [dfsListF, h1] at h
    | some l1 =>
      cases h2 : dfsListF dfs1 cs with
      | none => simp [dfsListF, h1, h2] at h
      | some l2 =>
        simp only [dfsListF, h1, h2] at h
        cases h
        rcases List.mem_cons.mp hc with he | he
        · exact ⟨l1, by rw [he]; exact h1, fun z hz => List.mem_append_left _ hz⟩
        · obtain ⟨lc, hlc, hsub⟩ := ih h2 he
          exact ⟨lc, hlc, fun z hz => List.mem_append_right _ (hsub z hz)⟩

theorem dfsF_mem_child {ch : List (α × List α)} {n : Nat} {q c : α} {l : List α}
    (hc : c ∈ childGet ch q) (h : dfsF (n + 1) ch q = some l) : c ∈ l := by
  have h' : (dfsListF (dfsF n ch) (childGet ch q)).map (q :: ·) = some l := h
  cases hdl : dfsListF (dfsF n ch) (childGet ch q) with
  | none =>
    rw [hdl] at h'
    cases h'
  | some L =>
    rw [hdl] at h'
    cases h'
    obtain ⟨lc, hlc, hsub⟩ := dfsListF_mem hdl hc
    cases n with
    | zero => simp [dfsF] at hlc
    | succ m =>
      exact List.mem_cons_of_mem _ (hsub c (dfsF_mem_self hlc))

/-- Bound on the `d`-value of anything recorded in a children index. -/
theorem childGet_flat_bound {ch : List (α × List α)} {q c : α}
    (h : c ∈ childGet ch q) (d : α → Nat) :
    d c ≤ ((ch.flatMap Prod.snd).map d).foldr max 0 := by
  apply le_foldr_max_mem
  apply List.mem_map_of_mem
  unfold childGet at h
  cases hl : alookup ch q with
  | none =>
    rw [hl] at h
    simp at h
  | some lst =>
    rw [hl] at h
    simp only [Option.getD_some] at h
    exact List.mem_flatMap.mpr ⟨(q, lst), mem_of_alookup hl, h⟩

end DfsLemmas

/-! ## Fuel monotonicity of `_find` -/

section FindMono

variable {α ε : Type} [DecidableEq α]

theorem findG_mono {j : JoinFn α ε} :
    ∀ {f f' : Nat} {s : GState α ε} {x : α} {ins : Bool} {res : α × GState α ε},
      findG j f s x ins = some res → f ≤ f' → findG j f' s x ins = some res := by
  intro f
  induction f with
  | zero =>
    intro f' s x ins res h _
    simp [findG] at h
  | succ f ih =>
    intro f' s x ins res h hle
    obtain ⟨f'', rfl⟩ : ∃ f'', f' = f'' + 1 := ⟨f' - 1, by omega⟩
    rw [findG_succ] at h ⊢
    split at h
    · exact h
    · exact h
    · next p hx =>
        cases hf : findG j f s p false with
        | none =>
          rw [hf] at h
          simp at h
        | some rs =>
          obtain ⟨r1, s1⟩ := rs
          rw [hf] at h
          rw [ih hf (by omega)]
          exact h

end FindMono

/-! ## C7 (amended) and C10 (amended) -/

section PartitionClaims

variable {α : Type} [DecidableEq α]

/-- C7 (amended): in the unkeyed variants (base and bidirectional),
`partition(x)` of a never-inserted `x` is the empty set, and `partition(x)` of
a tracked `x` contains `x`; in the keyed variants, `partition(x)` of an
inserted `x` contains `x` provided every tracked key is a fixed point of the
key function (as holds whenever only images of an idempotent key function have
been inserted — the keyed `_find` applies the key function to its argument
and again at every parent hop, see C6), with idempotency itself also assumed
in the keyed-bidirectional part.  (The original claim's "untracked ⇒ empty"
fails for the keyed variants: an uninserted object whose key collides with a
tracked key receives a non-empty set, see the counterexample.)  All parts are
stated over acyclic (and where needed closed / children-compatible) states,
the well-formed states the structure is designed to maintain. -/
theorem partition_untracked_empty_tracked_mem :
    (∀ (ε : Type) (j : JoinFn α ε), GoodJoin j → ∀ (s : GState α ε) (d : α → Nat),
      Wfd s d → ClosedS s → ∀ x, alookup s.parent x = none →
      ∃ f s', partitionWith (fun t z => findG j f t z false) s x = some ([], s')) ∧
    (∀ (ε : Type) (j : JoinFn α ε), GoodJoin j → ∀ (s : GState α ε) (d : α → Nat),
      Wfd s d → ∀ x, (alookup s.parent x).isSome →
      ∃ f l s', partitionWith (fun t z => findG j f t z false) s x = some (l, s') ∧
        x ∈ l) ∧
    (∀ (f1 f2 : Nat) (s : BState α) (x : α), alookup s.parent x = none →
      partitionBWith (fun t z => findG bidirJoin f1 t z false) f2 s x =
        some ([], s)) ∧
    (∀ (s : BState α) (d : α → Nat), Wfd s d → WfCh s d → ∀ x,
      (alookup s.parent x).isSome →
      ∃ f1 f2 l s', partitionBWith (fun t z => findG bidirJoin f1 t z false) f2 s x =
        some (l, s') ∧ x ∈ l) ∧
    (∀ (ε : Type) (j : JoinFn α ε), GoodJoin j → ∀ (k : α → α) (s : KState α ε)
      (d : α → Nat), Wfd s.base d → ClosedS s.base → KeyFixed k s.base →
      ∀ x, (alookup s.base.parent (k x)).isSome →
      x ∈ childGet s.buckets (k x) →
      ∃ f l s', partitionK j k f s x = some (l, s') ∧ x ∈ l) ∧
    (∀ (k : α → α), (∀ z, k (k z) = k z) →
      ∀ (s : KState α (List (α × List α))) (d : α → Nat),
      Wfd s.base d → WfCh s.base d → ClosedS s.base → KeyFixed k s.base →
      ∀ x, (alookup s.base.parent (k x)).isSome →
      x ∈ childGet s.buckets (k x) →
      ∃ f l s', partitionKB k f s x = some (l, s') ∧ x ∈ l) := by
  refine ⟨?_, ?_, ?_, ?_, ?_, ?_⟩
  · -- (1) base variant, untracked argument: empty partition
    intro ε j hj s d hd hc x hx
    obtain ⟨f, l, s', w, heq, hRy, hmem⟩ := partitionWith_char hj (fun z => z) hd x
    have hw : w = x := Root_det hRy (Root_of_unseen hx)
    have hnil : l = [] := by
      rw [List.eq_nil_iff_forall_not_mem]
      intro z hz
      obtain ⟨hzk, hzr⟩ := (hmem z).mp hz
      have hztr : (alookup s.parent z).isSome := alookup_isSome_of_mem_keys hzk
      obtain ⟨g, hg⟩ := hzr
      have := Root_mem_of_closed hc hg hztr
      rw [hw, hx] at this
      cases this
    rw [hnil] at heq
    exact ⟨f, s', heq⟩
  · -- (2) base variant, tracked argument: contains the argument
    intro ε j hj s d hd x hx
    obtain ⟨f, l, s', w, heq, hRy, hmem⟩ := partitionWith_char hj (fun z => z) hd x
    refine ⟨f, l, s', heq, ?_⟩
    apply (hmem x).mpr
    refine ⟨?_, hRy⟩
    obtain ⟨v, hv⟩ := Option.isSome_iff_exists.mp hx
    exact mem_keys_of_alookup hv
  · -- (3) bidirectional variant, untracked argument: empty partition
    intro f1 f2 s x hx
    simp [partitionBWith, hx]
  · -- (4) bidirectional variant, tracked argument: contains the argument
    intro s d hd hch x hx
    have hterm := findG_term (j := bidirJoin) hd (x := x) false (Nat.lt_succ_self _)
    cases hf : findG bidirJoin (d x + 1) s x false with
    | none =>
      rw [hf] at hterm
      cases hterm
    | some rs =>
      obtain ⟨r, s1⟩ := rs
      have hch1 : WfCh s1 d := findB_childcompat hd hch hf
      have hpost := findB_child_post hf
      set M := ((s1.extra.flatMap Prod.snd).map d).foldr max 0 with hM
      obtain ⟨l0, hl0⟩ := dfsF_term (d := d) (M := M)
        (fun q c hqc => hch1 q c hqc)
        (fun q c hqc => childGet_flat_bound hqc d)
        (M + 1) r (by omega)
      refine ⟨d x + 1, M + 2, l0, s1, ?_, ?_⟩
      · simp only [partitionBWith, hx, if_true, hf, hl0]
        rfl
      · rcases hpost with he | he
        · rw [← he]
          exact dfsF_mem_self hl0
        · exact dfsF_mem_child he hl0
  · -- (5) keyed variant, inserted object: contains the object
    intro ε j hj k s d hd hc hT x hkx hbx
    obtain ⟨f, l, s', w, heq, hRy, hmem⟩ := partitionWith_char hj k hd (k x)
    have hkl : k x ∈ l := by
      apply (hmem (k x)).mpr
      refine ⟨?_, hRy⟩
      obtain ⟨v, hv⟩ := Option.isSome_iff_exists.mp hkx
      exact mem_keys_of_alookup hv
    refine ⟨f, l.flatMap (childGet s.buckets), ⟨s', s.buckets⟩, ?_, ?_⟩
    · simp only [partitionK, partitionWith_keyed_eq hj hd hc hT f (k x), heq]
      rfl
    · exact List.mem_flatMap.mpr ⟨k x, hkl, hbx⟩
  · -- (6) keyed bidirectional variant with idempotent key function
    intro k hidem s d hd hch hc hT x hkx hbx
    have hterm := findG_term (j := bidirJoin) hd (x := k x) false (Nat.lt_succ_self _)
    cases hf : findG bidirJoin (d (k x) + 1) s.base (k x) false with
    | none =>
      rw [hf] at hterm
      cases hterm
    | some rs =>
      obtain ⟨r, s1⟩ := rs
      have hch1 : WfCh s1 d := findB_childcompat hd hch hf
      have hpost := findB_child_post hf
      set M := ((s1.extra.flatMap Prod.snd).map d).foldr max 0 with hM
      set f := max (d (k x) + 1) (M + 2) with hfdef
      have hfind : findG bidirJoin f s.base (k x) false = some (r, s1) :=
        findG_mono hf (Nat.le_max_left _ _)
      obtain ⟨n, hn⟩ : ∃ n, f = n + 1 := ⟨f - 1, by omega⟩
      obtain ⟨l0, hl0⟩ := dfsF_term (d := d) (M := M)
        (fun q c hqc => hch1 q c hqc)
        (fun q c hqc => childGet_flat_bound hqc d)
        n r (by omega)
      rw [← hn] at hl0
      have hmemx : k x ∈ l0 := by
        rcases hpost with he | he
        · rw [← he]
          rw [hn] at hl0
          exact dfsF_mem_self hl0
        · rw [hn] at hl0
          exact dfsF_mem_child he hl0
      refine ⟨f, l0.flatMap (childGet s.buckets), ⟨s1, s.buckets⟩, ?_, ?_⟩
      · have hKD : findKF bidirJoin k f s.base (k x) false = some (r, s1) := by
          rw [findKF_eq_findG (fun a p hp => hT p (hc a p hp)) f (k x) false, hidem x]
          exact hfind
        simp only [partitionKB, partitionBWith, hkx, if_true, hKD, hl0]
        rfl
      · exact List.mem_flatMap.mpr ⟨k x, hmemx, hbx⟩

end PartitionClaims

section PartitionWitness

theorem no_edge_single (a : Nat) :
    ∀ z p : Nat, alookup [(a, (none : Option Nat))] z = some (some p) → False := by
  intro z p h
  by_cases hz : z = a <;> simp [alookup, hz] at h

theorem modKey_keyFixed_single {ε : Type} {s : GState Nat ε}
    (h : s.parent = [(0, none)]) : KeyFixed modKey s := by
  intro z hz
  rw [h] at hz
  by_cases h0 : z = 0
  · subst h0
    decide
  · simp [alookup, h0] at hz

theorem partition_untracked_empty_tracked_mem_witness :
    (∃ f s', partitionWith (fun t z => findG baseJoin f t z false)
      (initE (α := Nat)) 5 = some ([], s')) ∧
    (∃ f l s', partitionWith (fun t z => findG baseJoin f t z false)
      (updateG baseJoin (initE (α := Nat)) [0]) 0 = some (l, s') ∧ 0 ∈ l) ∧
    (partitionBWith (fun t z => findG bidirJoin 1 t z false) 1
      (initB (α := Nat)) 5 = some ([], initB)) ∧
    (∃ f1 f2 l s', partitionBWith (fun t z => findG bidirJoin f1 t z false) f2
      (updateG bidirJoin (initB (α := Nat)) [0]) 0 = some (l, s') ∧ 0 ∈ l) ∧
    (∃ f l s', partitionK baseJoin modKey f modKeyState 2 = some (l, s') ∧ 2 ∈ l) ∧
    (∃ f l s', partitionKB modKey f (updateK bidirJoin modKey initKB [2]) 2 =
      some (l, s') ∧ 2 ∈ l) :=
  ⟨(partition_untracked_empty_tracked_mem.1 Unit baseJoin goodJoin_base
      initE (fun _ => 0) (fun _ _ h => Option.noConfusion h)
      (fun _ _ h => Option.noConfusion h) 5 rfl),
   (partition_untracked_empty_tracked_mem.2.1 Unit baseJoin goodJoin_base
      (updateG baseJoin initE [0]) (fun _ => 0)
      (fun z p h => ((no_edge_single 0 z p h).elim : (fun _ => 0) p < (fun _ => 0) z))
      0 rfl),
   (partition_untracked_empty_tracked_mem.2.2.1 1 1 initB 5 rfl),
   (partition_untracked_empty_tracked_mem.2.2.2.1
      (updateG bidirJoin initB [0]) (fun _ => 0)
      (fun z p h => ((no_edge_single 0 z p h).elim : (fun _ => 0) p < (fun _ => 0) z))
      (fun q c hc => absurd hc (List.not_mem_nil c))
      0 rfl),
   (partition_untracked_empty_tracked_mem.2.2.2.2.1 Unit baseJoin goodJoin_base
      modKey modKeyState (fun _ => 0)
      (fun z p h => ((no_edge_single 0 z p h).elim : (fun _ => 0) p < (fun _ => 0) z))
      (fun z p h => (no_edge_single 0 z p h).elim)
      (modKey_keyFixed_single rfl)
      2 rfl (by decide)),
   (partition_untracked_empty_tracked_mem.2.2.2.2.2 modKey
      (fun z => by unfold modKey; omega)
      (updateK bidirJoin modKey initKB [2]) (fun _ => 0)
      (fun z p h => ((no_edge_single 0 z p h).elim : (fun _ => 0) p < (fun _ => 0) z))
      (fun q c hc => absurd hc (List.not_mem_nil c))
      (fun z p h => (no_edge_single 0 z p h).elim)
      (modKey_keyFixed_single rfl)
      2 rfl (by decide))⟩

end PartitionWitness

section KeyedPartitionClaims

variable {α : Type} [DecidableEq α]

/-- C10 (amended): `KeyEquivalence.partition(x)` is determined solely by
`key(x)`: objects with equal keys have identical partition results.  When
every tracked key is a fixed point of the key function and the key function
is idempotent — as in every keyed state reached with an idempotent key
function, only key images being inserted — it moreover equals the union of
the `_key2objects` buckets of all tracked keys in the class of `key(x)`, and
an object never inserted whose key equals an inserted object's key receives
that non-empty set, which does not contain the uninserted object itself.  For
other key functions the characterization fails: every internal find
dispatches to the keyed `_find`, which re-applies the key function, so
`partition` can drop class buckets or fail to terminate (see the
counterexample and C6). -/
theorem keyed_partition_characterization {ε : Type} {j : JoinFn α ε}
    (hj : GoodJoin j) (k : α → α) (s : KState α ε) (d : α → Nat)
    (hd : Wfd s.base d) (hc : ClosedS s.base) (hT : KeyFixed k s.base)
    (hidem : ∀ z, k (k z) = k z) :
    (∀ (f : Nat) (a b : α), k a = k b →
      partitionK j k f s a = partitionK j k f s b) ∧
    (∀ x, ∃ f res s' w, partitionK j k f s x = some (res, s') ∧
      Root s.base (k x) w ∧
      ∀ o, o ∈ res ↔ ∃ z, z ∈ s.base.parent.map Prod.fst ∧ Root s.base z w ∧
        o ∈ childGet s.buckets z) ∧
    (∀ x b, k x = k b → (alookup s.base.parent (k b)).isSome →
      b ∈ childGet s.buckets (k b) → (∀ key, x ∉ childGet s.buckets key) →
      ∃ f res s', partitionK j k f s x = some (res, s') ∧ b ∈ res ∧ x ∉ res) := by
  refine ⟨?_, ?_, ?_⟩
  · intro f a b hk
    unfold partitionK
    rw [hk]
  · intro x
    obtain ⟨f, l, s', w, heq, hRy, hmem⟩ := partitionWith_char hj k hd (k x)
    refine ⟨f, l.flatMap (childGet s.buckets), ⟨s', s.buckets⟩, w, ?_,
      (hidem x) ▸ hRy, ?_⟩
    · simp only [partitionK, partitionWith_keyed_eq hj hd hc hT f (k x), heq]
      rfl
    · intro o
      rw [List.mem_flatMap]
      constructor
      · rintro ⟨z, hzl, hzo⟩
        obtain ⟨hzk, hzr⟩ := (hmem z).mp hzl
        have hkz : k z = z := hT z (alookup_isSome_of_mem_keys hzk)
        rw [hkz] at hzr
        exact ⟨z, hzk, hzr, hzo⟩
      · rintro ⟨z, hzk, hzr, hzo⟩
        have hkz : k z = z := hT z (alookup_isSome_of_mem_keys hzk)
        refine ⟨z, (hmem z).mpr ⟨hzk, ?_⟩, hzo⟩
        rw [hkz]
        exact hzr
  · intro x b hkb htr hbb hnx
    obtain ⟨f, l, s', w, heq, hRy, hmem⟩ := partitionWith_char hj k hd (k x)
    have hkl : k x ∈ l := by
      apply (hmem (k x)).mpr
      refine ⟨?_, hRy⟩
      rw [hkb]
      obtain ⟨v, hv⟩ := Option.isSome_iff_exists.mp htr
      exact mem_keys_of_alookup hv
    refine ⟨f, l.flatMap (childGet s.buckets), ⟨s', s.buckets⟩, ?_, ?_, ?_⟩
    · simp only [partitionK, partitionWith_keyed_eq hj hd hc hT f (k x), heq]
      rfl
    · refine List.mem_flatMap.mpr ⟨k x, hkl, ?_⟩
      rw [hkb]
      exact hbb
    · intro hxin
      obtain ⟨z, _, hz⟩ := List.mem_flatMap.mp hxin
      exact hnx z hz

theorem keyed_partition_characterization_witness :
    (partitionK baseJoin modKey 3 modKeyState 0 =
      partitionK baseJoin modKey 3 modKeyState 2) ∧
    (∃ f res s' w, partitionK baseJoin modKey f modKeyState 2 = some (res, s') ∧
      Root modKeyState.base (modKey 2) w ∧
      ∀ o, o ∈ res ↔ ∃ z, z ∈ modKeyState.base.parent.map Prod.fst ∧
        Root modKeyState.base z w ∧ o ∈ childGet modKeyState.buckets z) ∧
    (∃ f res s', partitionK baseJoin modKey f modKeyState 4 = some (res, s') ∧
      2 ∈ res ∧ 4 ∉ res) := by
  have H := keyed_partition_characterization goodJoin_base modKey modKeyState
    (fun _ => 0)
    (fun z p h => ((no_edge_single 0 z p h).elim : (fun _ => 0) p < (fun _ => 0) z))
    (fun z p h => (no_edge_single 0 z p h).elim)
    (modKey_keyFixed_single rfl)
    (fun z => by unfold modKey; omega)
  refine ⟨H.1 3 0 2 rfl, H.2.1 2, H.2.2 4 2 rfl rfl (by decide) ?_⟩
  intro key
  by_cases hk : key = 0
  · subst hk
    show (4 : Nat) ∉ childGet modKeyState.buckets 0
    decide
  · show (4 : Nat) ∉ childGet modKeyState.buckets key
    unfold modKeyState updateK initK updateBuckets
    simp only [List.foldl]
    intro hmem
    rcases mem_childGet_madd_elim _ _ _ _ _ hmem with ⟨hk0, _⟩ | hmem'
    · exact hk (by simpa using hk0)
    · simp [childGet, alookup] at hmem'

end KeyedPartitionClaims

/-! ## C4 (amended): the children index contains the inverse of the parent map -/

section InvBLemmas

variable {α : Type} [DecidableEq α]

theorem invB_join {s : BState α} (h : InvB s) (x : α) (p : Option α) :
    InvB (bidirJoin s x p) := by
  cases p with
  | none =>
    intro y q hyq
    have hyq' : alookup (aset s.parent x none) y = some (some q) := hyq
    rw [alookup_aset] at hyq'
    by_cases hy : y = x
    · rw [if_pos hy] at hyq'
      cases hyq'
    · rw [if_neg hy] at hyq'
      exact h y q hyq'
  | some q0 =>
    intro y q hyq
    have hyq' : alookup (aset s.parent x (some q0)) y = some (some q) := hyq
    rw [alookup_aset] at hyq'
    by_cases hy : y = x
    · rw [if_pos hy] at hyq'
      cases hyq'
      subst hy
      exact mem_childGet_madd_self s.extra q0 y
    · rw [if_neg hy] at hyq'
      exact mem_childGet_madd_of_mem _ _ _ _ _ (h y q hyq')

theorem invB_setRank0 {s : BState α} (h : InvB s) (x : α) : InvB (setRank0 s x) :=
  fun y q hyq => h y q hyq

theorem invB_bumpRank {s : BState α} (h : InvB s) (x : α) : InvB (bumpRank s x) :=
  fun y q hyq => h y q hyq

theorem invB_find :
    ∀ {f : Nat} {s : BState α} {x : α} {ins : Bool} {r : α} {s' : BState α},
      InvB s → findG bidirJoin f s x ins = some (r, s') → InvB s' := by
  intro f
  induction f with
  | zero =>
    intro s x ins r s' _ h
    simp [findG] at h
  | succ f ih =>
    intro s x ins r s' hI h
    rw [findG_succ] at h
    split at h
    · cases ins with
      | false =>
        have h' : some (x, s) = some (r, s') := by simpa using h
        cases h'
        exact hI
      | true =>
        have h' : some (x, setRank0 (bidirJoin s x none) x) = some (r, s') := by
          simpa using h
        cases h'
        exact invB_setRank0 (invB_join hI x none) x
    · cases h
      exact hI
    · split at h
      · exact absurd h (by simp)
      · next r s1 hf =>
          cases h
          exact invB_join (ih hI hf) x (some r)

theorem invB_mergeStep {f : Nat} {root : α} {s : BState α} {obj : α} {r' : α}
    {s' : BState α} (hI : InvB s)
    (h : mergeStepG bidirJoin f root s obj = some (r', s')) : InvB s' := by
  cases hf : findG bidirJoin f s obj true with
  | none => simp [mergeStepG, hf] at h
  | some rs =>
    obtain ⟨r2, s1⟩ := rs
    have hI1 : InvB s1 := invB_find hI hf
    simp only [mergeStepG, hf] at h
    by_cases hgt : getRank s1 root > getRank s1 r2
    · rw [if_pos hgt] at h
      cases h
      exact invB_join hI1 r2 (some root)
    · rw [if_neg hgt] at h
      by_cases hlt : getRank s1 root < getRank s1 r2
      · rw [if_pos hlt] at h
        cases h
        exact invB_join hI1 root (some r2)
      · rw [if_neg hlt] at h
        by_cases hne : root ≠ r2
        · rw [if_pos hne] at h
          cases h
          exact invB_join (invB_bumpRank hI1 root) r2 (some root)
        · rw [if_neg hne] at h
          cases h
          exact hI1

theorem invB_mergeGo :
    ∀ {objs : List α} {f : Nat} {root : α} {s : BState α} {r' : α} {s' : BState α},
      InvB s → mergeGoG bidirJoin f objs root s = some (r', s') → InvB s' := by
  intro objs
  induction objs with
  | nil =>
    intro f root s r' s' hI h
    cases h
    exact hI
  | cons o rest ih =>
    intro f root s r' s' hI h
    cases hstep : mergeStepG bidirJoin f root s o with
    | none => simp [mergeGoG, hstep] at h
    | some rs =>
      obtain ⟨r1, s1⟩ := rs
      simp only [mergeGoG, hstep] at h
      exact ih (invB_mergeStep hI hstep) h

theorem invB_merge {f : Nat} {s : BState α} {objs : List α} {s' : BState α}
    (hI : InvB s) (h : mergeG bidirJoin f s objs = some s') : InvB s' := by
  cases objs with
  | nil =>
    cases h
    exact hI
  | cons o rest =>
    cases hf : findG bidirJoin f s o true with
    | none => simp [mergeG, hf] at h
    | some rs =>
      obtain ⟨r1, s1⟩ := rs
      simp only [mergeG, hf] at h
      cases hgo : mergeGoG bidirJoin f rest r1 s1 with
      | none => rw [hgo] at h; cases h
      | some rs' =>
        obtain ⟨r2, s2⟩ := rs'
        rw [hgo] at h
        have h2 : some s2 = some s' := by simpa using h
        cases h2
        exact invB_mergeGo (invB_find hI hf) hgo

theorem invB_update {s : BState α} (hI : InvB s) (objs : List α) :
    InvB (updateG bidirJoin s objs) := by
  induction objs generalizing s with
  | nil => exact hI
  | cons o rest ih =>
    show InvB (updateG bidirJoin
      (if (alookup s.parent o).isSome then s else setRank0 (bidirJoin s o none) o) rest)
    by_cases ho : (alookup s.parent o).isSome
    · rw [if_pos ho]
      exact ih hI
    · rw [if_neg ho]
      exact ih (invB_setRank0 (invB_join hI o none) o)

theorem invB_areEqvGo :
    ∀ {objs : List α} {f : Nat} {root : α} {s : BState α} {res : Except String Bool}
      {s' : BState α}, InvB s →
      areEqvGoG bidirJoin f objs root s = some (res, s') → InvB s' := by
  intro objs
  induction objs with
  | nil =>
    intro f root s res s' hI h
    cases h
    exact hI
  | cons o rest ih =>
    intro f root s res s' hI h
    cases hf : findG bidirJoin f s o false with
    | none => simp [areEqvGoG, hf] at h
    | some rs =>
      obtain ⟨r1, s1⟩ := rs
      simp only [areEqvGoG, hf] at h
      have hI1 : InvB s1 := invB_find hI hf
      by_cases hr : r1 = root
      · rw [if_pos hr] at h
        exact ih hI1 h
      · rw [if_neg hr] at h
        cases h
        exact hI1

theorem invB_areEqv {f : Nat} {s : BState α} {objs : List α}
    {res : Except String Bool} {s' : BState α} (hI : InvB s)
    (h : areEqvG bidirJoin f s objs = some (res, s')) : InvB s' := by
  cases objs with
  | nil =>
    cases h
    exact hI
  | cons o rest =>
    cases hf : findG bidirJoin f s o false with
    | none => simp [areEqvG, hf] at h
    | some rs =>
      obtain ⟨r1, s1⟩ := rs
      simp only [areEqvG, hf] at h
      exact invB_areEqvGo (invB_find hI hf) h

theorem invB_partGo {find1 : BState α → α → Option (α × BState α)}
    (hfind : ∀ {t : BState α} {z r t'}, InvB t → find1 t z = some (r, t') → InvB t') :
    ∀ {os : List α} {root : α} {acc : List α} {s : BState α} {l : List α}
      {s' : BState α}, InvB s → partGo find1 os root acc s = some (l, s') → InvB s' := by
  intro os
  induction os with
  | nil =>
    intro root acc s l s' hI h
    cases h
    exact hI
  | cons z zs ih =>
    intro root acc s l s' hI h
    cases hf : find1 s z with
    | none => simp [partGo, hf] at h
    | some rs =>
      obtain ⟨r1, s1⟩ := rs
      simp only [partGo, hf] at h
      exact ih (hfind hI hf) h

theorem invB_partsGo {find1 : BState α → α → Option (α × BState α)}
    (hfind : ∀ {t : BState α} {z r t'}, InvB t → find1 t z = some (r, t') → InvB t') :
    ∀ {os : List α} {acc : List (α × List α)} {s : BState α}
      {res : List (α × List α)} {s' : BState α},
      InvB s → partsGo find1 os acc s = some (res, s') → InvB s' := by
  intro os
  induction os with
  | nil =>
    intro acc s res s' hI h
    cases h
    exact hI
  | cons o rest ih =>
    intro acc s res s' hI h
    cases hf : find1 s o with
    | none => simp [partsGo, hf] at h
    | some rs =>
      obtain ⟨r1, s1⟩ := rs
      simp only [partsGo, hf] at h
      exact ih (hfind hI hf) h

theorem invB_partitionB {f1 f2 : Nat} {s : BState α} {x : α} {l : List α}
    {s' : BState α} (hI : InvB s)
    (h : partitionBWith (fun t z => findG bidirJoin f1 t z false) f2 s x =
      some (l, s')) : InvB s' := by
  unfold partitionBWith at h
  by_cases hx : (alookup s.parent x).isSome
  · rw [if_pos hx] at h
    cases hf : findG bidirJoin f1 s x false with
    | none => simp [hf] at h
    | some rs =>
      obtain ⟨r1, s1⟩ := rs
      simp only [hf] at h
      cases hdfs : dfsF f2 s1.extra r1 with
      | none => simp [hdfs] at h
      | some l0 =>
        rw [hdfs] at h
        have h' : some (l0, s1) = some (l, s') := by simpa using h
        cases h'
        exact invB_find hI hf
  · rw [if_neg hx] at h
    cases h
    exact hI

theorem invB_stepB {f : Nat} {s : BState α} {op : EqOp α} {s' : BState α}
    (hI : InvB s) (h : stepB f s op = some s') : InvB s' := by
  cases op with
  | update os =>
    cases h
    exact invB_update hI os
  | merge os => exact invB_merge hI h
  | areEqv os =>
    cases hres : areEqvG bidirJoin f s os with
    | none => simp [stepB, hres] at h
    | some rs =>
      obtain ⟨res, s1⟩ := rs
      simp only [stepB, hres] at h
      have h' : some s1 = some s' := by simpa using h
      cases h'
      exact invB_areEqv hI hres
  | partition x =>
    cases hres : partitionBWith (fun t z => findG bidirJoin f t z false) f s x with
    | none => simp [stepB, hres] at h
    | some rs =>
      obtain ⟨l, s1⟩ := rs
      simp only [stepB, hres] at h
      have h' : some s1 = some s' := by simpa using h
      cases h'
      exact invB_partitionB hI hres
  | partitions os =>
    cases hres : partitionsWith (fun t z => findG bidirJoin f t z false) s os with
    | none => simp [stepB, hres] at h
    | some rs =>
      obtain ⟨res, s1⟩ := rs
      simp only [stepB, hres] at h
      have h' : some s1 = some s' := by simpa using h
      cases h'
      exact invB_partsGo (fun hI' hf => invB_find hI' hf) hI hres

theorem invB_runB :
    ∀ {ops : List (EqOp α)} {f : Nat} {s s' : BState α},
      InvB s → runB f s ops = some s' → InvB s' := by
  intro ops
  induction ops with
  | nil =>
    intro f s s' hI h
    cases h
    exact hI
  | cons op rest ih =>
    intro f s s' hI h
    cases hstep : stepB f s op with
    | none => simp [runB, hstep] at h
    | some s1 =>
      simp only [runB, hstep] at h
      exact ih (invB_stepB hI hstep) h

/-- C4 (amended): in every state of the bidirectional variant reachable by
`update`/`merge`/`are_equivalent`/`partition`/`partitions` calls, every object
with a non-null parent is recorded among that parent's children in
`_parent2children`.  The index is however only a superset of the inverse of
the parent map: re-parenting (by `merge` or by path compression inside
`_find`) does not remove the object from its former parent's children set
(see the counterexample), so stale entries accumulate. -/
theorem children_index_contains_inverse (f : Nat) (ops : List (EqOp α))
    {s : BState α} (h : runB f initB ops = some s) : InvB s :=
  invB_runB (fun _ _ hyq => Option.noConfusion hyq) h

theorem children_index_contains_inverse_witness :
    InvB (⟨[(0, none), (1, some 0)], [(0, 1), (1, 0)], [(0, [1])]⟩ : BState Nat) :=
  children_index_contains_inverse 5 [EqOp.merge [0, 1]] (by rfl)

end InvBLemmas
